import Mathlib

/-!
Verification development for the sner rate-limited target scheduler
(`sner/server/scheduler/core.py`).

The Python source is embedded shallowly:

* Addresses are parsed and printed at the character-list level, mirroring the
  CPython `ipaddress` module (Python ≥ 3.8 semantics) closely enough for the
  functions under scrutiny (`hashval`, `enumerate_network`).
* The scheduler's persistent relations (Target, Readynet, Heatmap, Job) become
  lists inside a `SchedState`; the SQL statements of each operation become
  explicit list manipulations.  Randomness (`func.random()`, the GC coin) is
  supplied by an oracle, a list of naturals consumed left to right.
-/

namespace Sner

/-- Splits a character list on a separator, Python `str.split(sep)` style;
the result always has at least one (possibly empty) part. -/
def splitOnChar (sep : Char) : List Char → List (List Char)
  | [] => [[]]
  | c :: cs =>
    let r := splitOnChar sep cs
    if c = sep then [] :: r
    else
      match r with
      | [] => [[c]]
      | p :: ps => (c :: p) :: ps

/-- Hexadecimal digit test, upper or lower case. -/
def isHexDigitChar (c : Char) : Bool :=
  c.isDigit || ('a' ≤ c && c ≤ 'f') || ('A' ≤ c && c ≤ 'F')

/-- Value of a hexadecimal digit character. -/
def hexDigitVal (c : Char) : Nat :=
  if c.isDigit then c.toNat - 48
  else if 'a' ≤ c then c.toNat - 87
  else c.toNat - 55

/-- Digit character in bases up to 16, lowercase, as produced by Python
address formatting. -/
def digitCh (n : Nat) : Char :=
  if n < 10 then Char.ofNat (48 + n) else Char.ofNat (87 + n)

/-- Worker for `natChars`, most significant digit first. -/
def natCharsCore : Nat → Nat → Nat → List Char → List Char
  | 0, _, _, acc => acc
  | fuel + 1, base, n, acc =>
    if n < base then digitCh n :: acc
    else natCharsCore fuel base (n / base) (digitCh (n % base) :: acc)

/-- Digits of `n` in the given base, no leading zeros, `natChars 10 0 = ['0']`. -/
def natChars (base n : Nat) : List Char := natCharsCore (n + 1) base n []

/-- Joins parts with a single separator character between them. -/
def joinSep (sep : Char) : List (List Char) → List Char
  | [] => []
  | [p] => p
  | p :: ps => p ++ sep :: joinSep sep ps

/-- One dotted-quad octet per Python `ipaddress`: one to three digits, no
leading zero, value at most 255. -/
def parseOctet (p : List Char) : Option Nat :=
  if (!p.isEmpty) && p.length ≤ 3 && p.all Char.isDigit
      && (p.headD '0' != '0' || p == ['0']) then
    let v := p.foldl (fun a c => a * 10 + (c.toNat - 48)) 0
    if v ≤ 255 then some v else none
  else none

/-- Python `IPv4Address(str)` parsing: four dot-separated octets. -/
def parseIPv4Chars (l : List Char) : Option Nat :=
  if l.all (fun c => c.isDigit || c == '.') then
    match (splitOnChar '.' l).mapM parseOctet with
    | some [a, b, c, d] => some (((a * 256 + b) * 256 + c) * 256 + d)
    | _ => none
  else none

/-- One IPv6 group: one to four hexadecimal digits. -/
def parseHextet (p : List Char) : Option Nat :=
  if (!p.isEmpty) && p.length ≤ 4 && p.all isHexDigitChar then
    some (p.foldl (fun a c => a * 16 + hexDigitVal c) 0)
  else none

/-- Accumulates 16-bit groups into one value. -/
def foldHextets (hs : List Nat) : Nat := hs.foldl (fun a x => a * 65536 + x) 0

/-- Replaces a trailing dotted-quad (IPv4-embedded) part by its two 16-bit
groups, as CPython does before hextet parsing. -/
def expandV4Tail (parts : List (List Char)) : Option (List (List Char)) :=
  match parts.getLast? with
  | none => none
  | some p =>
    if '.' ∈ p then
      match parseIPv4Chars p with
      | none => none
      | some v => some (parts.dropLast ++ [natChars 16 (v / 65536), natChars 16 (v % 65536)])
    else some parts

/-- CPython `_ip_int_from_string` for IPv6, applied to the colon-split parts:
at most one interior empty part (the `::`), eight groups accounting for the
skipped run, leading or trailing single colons refused. -/
def parseV6Parts (parts0 : List (List Char)) : Option Nat :=
  if parts0.length < 3 then none
  else
    match expandV4Tail parts0 with
    | none => none
    | some ps =>
      if 9 < ps.length then none
      else
        match (List.range ps.length).filter
            (fun i => decide (0 < i ∧ i < ps.length - 1) && (ps.getD i [' ']).isEmpty) with
        | [] =>
          if ps.length ≠ 8 then none
          else if (ps.headD [' ']).isEmpty || (ps.getLast?.getD [' ']).isEmpty then none
          else (ps.mapM parseHextet).map foldHextets
        | [skip] =>
          let headE := (ps.headD [' ']).isEmpty
          let lastE := (ps.getLast?.getD [' ']).isEmpty
          let hi := if headE then skip - 1 else skip
          let lo0 := ps.length - skip - 1
          let lo := if lastE then lo0 - 1 else lo0
          if (headE && hi != 0) || (lastE && lo != 0) then none
          else if 8 ≤ hi + lo then none
          else
            match (ps.take hi).mapM parseHextet, (ps.drop (ps.length - lo)).mapM parseHextet with
            | some hs, some ls => some (foldHextets hs * 65536 ^ (8 - hi) + foldHextets ls)
            | _, _ => none
        | _ => none

/-- Python `IPv6Address(str)` parsing, including an optional nonempty
`%zone` suffix. -/
def parseIPv6Chars (l0 : List Char) : Option Nat :=
  let addr : Option (List Char) :=
    match splitOnChar '%' l0 with
    | [a] => some a
    | [a, z] => if z.isEmpty then none else some a
    | _ => none
  match addr with
  | none => none
  | some l =>
    if l.all (fun c => isHexDigitChar c || c == ':' || c == '.') then
      parseV6Parts (splitOnChar ':' l)
    else none

/-- Dotted-quad text of a 32-bit value. -/
def ipv4Chars (a : Nat) : List Char :=
  joinSep '.' [natChars 10 (a / 16777216 % 256), natChars 10 (a / 65536 % 256),
    natChars 10 (a / 256 % 256), natChars 10 (a % 256)]

/-- The eight 16-bit groups of a 128-bit value. -/
def v6Groups (a : Nat) : List Nat :=
  (List.range 8).map (fun i => a / 65536 ^ (7 - i) % 65536)

/-- Longest run of zero groups of length at least two (leftmost on ties),
Python `_string_from_ip_int` doublecolon selection. -/
def bestZeroRun (gs : List Nat) : Option (Nat × Nat) :=
  let f : Nat × Option (Nat × Nat) × Option (Nat × Nat) → Nat →
      Nat × Option (Nat × Nat) × Option (Nat × Nat) :=
    fun st g =>
      match st with
      | (i, cur, best) =>
        if g = 0 then
          let cur' := match cur with
            | none => (i, 1)
            | some (cst, clen) => (cst, clen + 1)
          let best' := match best with
            | none => some cur'
            | some (bst, blen) => if blen < cur'.2 then some cur' else some (bst, blen)
          (i + 1, some cur', best')
        else (i + 1, none, best)
  match (gs.foldl f (0, none, none)).2.2 with
  | some (st, len) => if 2 ≤ len then some (st, len) else none
  | none => none

/-- RFC 5952 compressed text of a 128-bit value, as Python prints it. -/
def ipv6Chars (a : Nat) : List Char :=
  match bestZeroRun (v6Groups a) with
  | none => joinSep ':' ((v6Groups a).map (natChars 16))
  | some (st, len) =>
    joinSep ':' (((v6Groups a).take st).map (natChars 16)) ++ ':' :: ':' ::
      joinSep ':' (((v6Groups a).drop (st + len)).map (natChars 16))

/-- `SchedulerService.hashval`: the textual /24 (IPv4) or /48 (IPv6) bucket of
an address, any other string unchanged. -/
def hashval (value : String) : String :=
  match parseIPv4Chars value.data with
  | some a => String.mk (ipv4Chars (a / 256 * 256) ++ ['/', '2', '4'])
  | none =>
    match parseIPv6Chars value.data with
    | some a => String.mk (ipv6Chars (a / 65536 ^ 5 * 65536 ^ 5) ++ ['/', '4', '8'])
    | none => value

/-- Decimal number, no leading zeros (network prefix length). -/
def parseDecimal (p : List Char) : Option Nat :=
  if (!p.isEmpty) && p.all Char.isDigit && (p.headD '0' != '0' || p == ['0']) then
    some (p.foldl (fun a c => a * 10 + (c.toNat - 48)) 0)
  else none

/-- A parsed `ip_network` argument: family, maximal and actual prefix length,
and the (unmasked) address value. -/
structure NetSpec where
  isV6 : Bool
  maxLen : Nat
  plen : Nat
  addr : Nat
deriving Repr, DecidableEq

/-- Python `ip_network(arg, strict=False)` argument parsing (address with an
optional decimal prefix length). -/
def parseNetwork (l : List Char) : Option NetSpec :=
  match splitOnChar '/' l with
  | [a] =>
    match parseIPv4Chars a with
    | some v => some ⟨false, 32, 32, v⟩
    | none => (parseIPv6Chars a).map (fun v => ⟨true, 128, 128, v⟩)
  | [a, p] =>
    match parseDecimal p with
    | none => none
    | some n =>
      match parseIPv4Chars a with
      | some v => if n ≤ 32 then some ⟨false, 32, n, v⟩ else none
      | none =>
        match parseIPv6Chars a with
        | some v => if n ≤ 128 then some ⟨true, 128, n, v⟩ else none
        | none => none
  | _ => none

/-- Text of an address of either family. -/
def addrChars (isV6 : Bool) (a : Nat) : List Char :=
  if isV6 then ipv6Chars a else ipv4Chars a

/-- `enumerate_network` of `scheduler/core.py`, over Python ≥ 3.8 `ipaddress`
semantics (`hosts()` of a /32 or /128 yields the single address, of a /31 or
/127 both addresses); `none` models `ValueError`. -/
def enumerate_network (arg : String) : Option (List String) :=
  match parseNetwork arg.data with
  | none => none
  | some ns =>
    let hostBits := ns.maxLen - ns.plen
    let net := ns.addr / 2 ^ hostBits * 2 ^ hostBits
    let bcast := net + 2 ^ hostBits - 1
    let hosts : List Nat :=
      if ns.plen = ns.maxLen then [net]
      else if ns.plen = ns.maxLen - 1 then [net, net + 1]
      else if ns.isV6 then List.range' (net + 1) (bcast - net)
      else List.range' (net + 1) (bcast - net - 1)
    let data := hosts.map (fun a => String.mk (addrChars ns.isV6 a))
    let data := if ns.plen = ns.maxLen then String.mk (addrChars ns.isV6 net) :: data else data
    let data :=
      if ns.plen < ns.maxLen - 1 then
        String.mk (addrChars ns.isV6 net) ::
          (data ++ if ns.isV6 then [] else [String.mk (addrChars ns.isV6 bcast)])
      else data
    some data

/-- Outcome of the advisory-lock query seen by `get_lock`. -/
inductive LockOutcome where
  | acquired
  | sqlError
deriving DecidableEq

/-- `SchedulerService.get_lock`: the value handed to PostgreSQL
`SET LOCAL lock_timeout` (a duration in milliseconds) for a timeout
argument given in seconds. -/
def lockTimeoutMillis (timeout : Int) : Int := timeout * 100

/-- `SchedulerService.get_lock` control flow: `SQLAlchemyError` (which includes
lock-timeout expiry) rolls back and raises `SchedulerServiceBusyException`,
modelled as `error`; the call returns normally only when the lock is taken. -/
def get_lock (outcome : LockOutcome) : Except Unit Unit :=
  match outcome with
  | .acquired => .ok ()
  | .sqlError => .error ()

theorem splitOnChar_of_not_mem (sep : Char) (l : List Char) (h : sep ∉ l) :
    splitOnChar sep l = [l] := by
  induction l with
  | nil => rfl
  | cons c cs ih =>
    have hc : ¬ c = sep := fun hc => h (hc ▸ List.mem_cons_self c cs)
    have hcs : sep ∉ cs := fun hm => h (List.mem_cons_of_mem _ hm)
    simp only [splitOnChar, if_neg hc, ih hcs]

theorem all_ne_true_of_mem {p : Char → Bool} {l : List Char} {c : Char}
    (hc : c ∈ l) (hp : ¬ p c = true) : ¬ l.all p = true :=
  fun h => hp (List.all_eq_true.mp h c hc)

theorem parseIPv4Chars_slash {l : List Char} (h : '/' ∈ l) : parseIPv4Chars l = none := by
  unfold parseIPv4Chars
  rw [if_neg (all_ne_true_of_mem h (by decide))]

theorem parseIPv6Chars_slash {l : List Char} (h : '/' ∈ l) (h2 : '%' ∉ l) :
    parseIPv6Chars l = none := by
  unfold parseIPv6Chars
  rw [splitOnChar_of_not_mem _ _ h2]
  simp only []
  rw [if_neg (all_ne_true_of_mem h (by decide))]

theorem digitCh_valid : ∀ k, k < 16 → ¬ digitCh k = '/' ∧ ¬ digitCh k = '%' := by decide

theorem natCharsCore_chars {b : Nat} (hb : b ≤ 16) (hb0 : 0 < b) :
    ∀ fuel n (acc : List Char), (∀ c ∈ acc, ∃ k, k < 16 ∧ c = digitCh k) →
      ∀ c ∈ natCharsCore fuel b n acc, ∃ k, k < 16 ∧ c = digitCh k := by
  intro fuel
  induction fuel with
  | zero => intro n acc hacc c hc; exact hacc c hc
  | succ f ih =>
    intro n acc hacc c hc
    rw [natCharsCore] at hc
    by_cases hn : n < b
    · rw [if_pos hn] at hc
      rcases List.mem_cons.mp hc with rfl | hc
      · exact ⟨n, lt_of_lt_of_le hn hb, rfl⟩
      · exact hacc c hc
    · rw [if_neg hn] at hc
      refine ih (n / b) _ ?_ c hc
      intro c' hc'
      rcases List.mem_cons.mp hc' with rfl | hc'
      · exact ⟨n % b, lt_of_lt_of_le (Nat.mod_lt _ hb0) hb, rfl⟩
      · exact hacc c' hc'

theorem natChars_chars {b : Nat} (hb : b ≤ 16) (hb0 : 0 < b) {n : Nat} {c : Char}
    (hc : c ∈ natChars b n) : ∃ k, k < 16 ∧ c = digitCh k :=
  natCharsCore_chars hb hb0 (n + 1) n [] (by intro c hc; cases hc) c hc

theorem joinSep_cons_cons (sep : Char) (p q : List Char) (ps : List (List Char)) :
    joinSep sep (p :: q :: ps) = p ++ sep :: joinSep sep (q :: ps) := rfl

theorem mem_joinSep {sep c : Char} :
    ∀ {ls : List (List Char)}, c ∈ joinSep sep ls → c = sep ∨ ∃ p ∈ ls, c ∈ p
  | [], h => by simp [joinSep] at h
  | [p], h => Or.inr ⟨p, List.mem_cons_self p [], h⟩
  | p :: q :: ps, h => by
    rw [joinSep_cons_cons] at h
    rcases List.mem_append.mp h with h | h
    · exact Or.inr ⟨p, List.mem_cons_self p _, h⟩
    · rcases List.mem_cons.mp h with rfl | h
      · exact Or.inl rfl
      · rcases mem_joinSep h with h | ⟨r, hr, hcr⟩
        · exact Or.inl h
        · exact Or.inr ⟨r, List.mem_cons_of_mem _ hr, hcr⟩

theorem ipv4Chars_chars {a : Nat} {c : Char} (hc : c ∈ ipv4Chars a) :
    ¬ c = '/' ∧ ¬ c = '%' := by
  rcases mem_joinSep hc with rfl | ⟨p, hp, hcp⟩
  · exact ⟨by decide, by decide⟩
  · simp only [List.mem_cons, List.not_mem_nil, or_false] at hp
    have : ∃ k, k < 16 ∧ c = digitCh k := by
      rcases hp with rfl | rfl | rfl | rfl <;>
        exact natChars_chars (by decide) (by decide) hcp
    rcases this with ⟨k, hk, rfl⟩
    exact digitCh_valid k hk

theorem ipv6Chars_chars {a : Nat} {c : Char} (hc : c ∈ ipv6Chars a) :
    ¬ c = '/' ∧ ¬ c = '%' := by
  have hcol : (¬ (':' : Char) = '/') ∧ ¬ (':' : Char) = '%' := ⟨by decide, by decide⟩
  have hdig : ∀ p ∈ (v6Groups a).map (natChars 16), c ∈ p → ¬ c = '/' ∧ ¬ c = '%' := by
    intro p hp hcp
    rcases List.mem_map.mp hp with ⟨g, _, rfl⟩
    rcases natChars_chars (by decide) (by decide) hcp with ⟨k, hk, rfl⟩
    exact digitCh_valid k hk
  unfold ipv6Chars at hc
  rcases hbzr : bestZeroRun (v6Groups a) with _ | ⟨st, len⟩ <;> rw [hbzr] at hc
  · rcases mem_joinSep hc with rfl | ⟨p, hp, hcp⟩
    · exact hcol
    · exact hdig p hp hcp
  · rcases List.mem_append.mp hc with h | h
    · rcases mem_joinSep h with rfl | ⟨p, hp, hcp⟩
      · exact hcol
      · exact hdig p (by
          rcases List.mem_map.mp hp with ⟨g, hg, rfl⟩
          exact List.mem_map.mpr ⟨g, List.mem_of_mem_take hg, rfl⟩) hcp
    · rcases List.mem_cons.mp h with rfl | h
      · exact hcol
      · rcases List.mem_cons.mp h with rfl | h
        · exact hcol
        · rcases mem_joinSep h with rfl | ⟨p, hp, hcp⟩
          · exact hcol
          · exact hdig p (by
              rcases List.mem_map.mp hp with ⟨g, hg, rfl⟩
              exact List.mem_map.mpr ⟨g, List.mem_of_mem_drop hg, rfl⟩) hcp

theorem hashval_eq_of_v4 {s : String} {a : Nat} (h : parseIPv4Chars s.data = some a) :
    hashval s = String.mk (ipv4Chars (a / 256 * 256) ++ ['/', '2', '4']) := by
  unfold hashval; rw [h]

theorem hashval_eq_of_v6 {s : String} {a : Nat} (h4 : parseIPv4Chars s.data = none)
    (h6 : parseIPv6Chars s.data = some a) :
    hashval s = String.mk (ipv6Chars (a / 65536 ^ 5 * 65536 ^ 5) ++ ['/', '4', '8']) := by
  unfold hashval; rw [h4, h6]

theorem hashval_eq_of_none {s : String} (h4 : parseIPv4Chars s.data = none)
    (h6 : parseIPv6Chars s.data = none) : hashval s = s := by
  unfold hashval; rw [h4, h6]

/-- C6: `hashval` is a total deterministic function on strings: a string parsing
as an IPv4 address is mapped to the textual form of its enclosing /24 network, a
string parsing as an IPv6 address to the textual form of its enclosing /48
network, and every other string is returned unchanged. -/
theorem hashval_spec (s : String) :
    (∀ a, parseIPv4Chars s.data = some a →
      hashval s = String.mk (ipv4Chars (a / 256 * 256) ++ ['/', '2', '4'])) ∧
    (parseIPv4Chars s.data = none → ∀ a, parseIPv6Chars s.data = some a →
      hashval s = String.mk (ipv6Chars (a / 65536 ^ 5 * 65536 ^ 5) ++ ['/', '4', '8'])) ∧
    (parseIPv4Chars s.data = none → parseIPv6Chars s.data = none → hashval s = s) :=
  ⟨fun _ h => hashval_eq_of_v4 h, fun h4 _ h6 => hashval_eq_of_v6 h4 h6,
    fun h4 h6 => hashval_eq_of_none h4 h6⟩

/-- Witness for C6: `hashval` maps the IPv4 address `10.2.3.4` to `10.2.3.0/24`,
the IPv6 address `2001:db8:aa:bb::1` to `2001:db8:aa::/48`, and leaves the
hostname `host.example.com` unchanged. -/
theorem hashval_spec_witness :
    hashval "10.2.3.4" = "10.2.3.0/24" ∧
    hashval "2001:db8:aa:bb::1" = "2001:db8:aa::/48" ∧
    hashval "host.example.com" = "host.example.com" := by
  refine ⟨?_, ?_, ?_⟩
  · rw [(hashval_spec "10.2.3.4").1 167904004 (by decide)]; decide
  · rw [(hashval_spec "2001:db8:aa:bb::1").2.1 (by decide)
      (0x20010db800aa00bb0000000000000001 : Nat) (by decide)]
    decide
  · exact (hashval_spec "host.example.com").2.2 (by decide) (by decide)

/-- C10: `hashval` is idempotent; the /24 and /48 network strings it produces
contain a slash, so they do not parse as addresses and are returned unchanged. -/
theorem hashval_idempotent (s : String) : hashval (hashval s) = hashval s := by
  rcases h4 : parseIPv4Chars s.data with _ | a
  · rcases h6 : parseIPv6Chars s.data with _ | a
    · rw [hashval_eq_of_none h4 h6, hashval_eq_of_none h4 h6]
    · rw [hashval_eq_of_v6 h4 h6]
      have hmem : '/' ∈ ipv6Chars (a / 65536 ^ 5 * 65536 ^ 5) ++ ['/', '4', '8'] :=
        List.mem_append.mpr (Or.inr (List.mem_cons_self _ _))
      have hpc : '%' ∉ ipv6Chars (a / 65536 ^ 5 * 65536 ^ 5) ++ ['/', '4', '8'] := by
        intro hm
        rcases List.mem_append.mp hm with hm | hm
        · exact (ipv6Chars_chars hm).2 rfl
        · simp at hm
      exact hashval_eq_of_none (parseIPv4Chars_slash hmem) (parseIPv6Chars_slash hmem hpc)
  · rw [hashval_eq_of_v4 h4]
    have hmem : '/' ∈ ipv4Chars (a / 256 * 256) ++ ['/', '2', '4'] :=
      List.mem_append.mpr (Or.inr (List.mem_cons_self _ _))
    have hpc : '%' ∉ ipv4Chars (a / 256 * 256) ++ ['/', '2', '4'] := by
      intro hm
      rcases List.mem_append.mp hm with hm | hm
      · exact (ipv4Chars_chars hm).2 rfl
      · simp at hm
    exact hashval_eq_of_none (parseIPv4Chars_slash hmem) (parseIPv6Chars_slash hmem hpc)

/-- C7: the claim is what the source comments intend, but on Python ≥ 3.8 the
code is wrong at every host prefix: `hosts()` of a /32 already yields the single
address, and the `prefixlen == max_prefixlen` branch inserts it a second time,
so `enumerate_network "192.0.2.1"` emits the address twice, not once. -/
theorem enumerate_network_host_dup :
    enumerate_network "192.0.2.1" = some ["192.0.2.1", "192.0.2.1"] ∧
    enumerate_network "192.0.2.1" ≠ some ["192.0.2.1"] := by
  refine ⟨by decide, by decide⟩

/-- C8: the claim says `get_lock t` waits up to `t` seconds, and the busy path
does hold (`error` exactly on SQL failure), but the code converts the timeout
wrongly: for `timeout = 3` (`TIMEOUT_JOB_ASSIGN`) it sets PostgreSQL
`lock_timeout` to `3 * 100 = 300` milliseconds, not the 3000 ms of a 3-second
wait. -/
theorem get_lock_timeout_units :
    lockTimeoutMillis 3 = 300 ∧ lockTimeoutMillis 3 ≠ 3 * 1000 ∧
      (∀ o, get_lock o = .ok () ↔ o = .acquired) := by
  refine ⟨rfl, by decide, ?_⟩
  intro o; cases o <;> simp [get_lock]

/-- Python `str.strip()` over the character list. -/
def pystrip (s : String) : String :=
  String.mk (((s.data.dropWhile Char.isWhitespace).reverse.dropWhile Char.isWhitespace).reverse)

/-- A row of the Target relation. -/
structure TargetRow where
  queue_id : Nat
  target : String
  hashval : String
deriving Repr, DecidableEq, Inhabited

/-- A row of the Job relation (`assignment` kept as its target list; uuid as a
counter value). -/
structure JobRow where
  id : Nat
  queue_id : Nat
  targets : List String
  retval : Option Int
deriving Repr, DecidableEq

/-- A row of the Queue relation (operator-managed, fixed during a run). -/
structure QueueRow where
  id : Nat
  name : String
  active : Bool
  priority : Int
  reqs : List String
  group_size : Nat
deriving Repr, DecidableEq, Inhabited

/-- The scheduler's persistent state: Target, Readynet, Heatmap and Job
relations, plus the uuid source. -/
structure SchedState where
  targets : List TargetRow
  readynets : List (Nat × String)
  heatmap : List (String × Int)
  jobs : List JobRow
  next_job : Nat
deriving Repr, DecidableEq

/-- Process configuration: `SNER_HEATMAP_HOT_LEVEL`, the queue table, and the
ExclMatcher blacklist predicate. -/
structure Config where
  hot_level : Int
  queues : List QueueRow
  blacklist : String → Bool

/-- The empty database. -/
def initState : SchedState := ⟨[], [], [], [], 0⟩

/-- Heatmap row lookup by hashval. -/
def hmLookup (hm : List (String × Int)) (h : String) : Option Int :=
  (hm.find? (fun p => decide (p.1 = h))).map (fun p => p.2)

/-- Heatmap upsert: replace the row of `h`, or append a fresh one. -/
def hmSet : List (String × Int) → String → Int → List (String × Int)
  | [], h, c => [(h, c)]
  | p :: ps, h, c => if p.1 = h then (h, c) :: ps else p :: hmSet ps h c

/-- Heatmap count of a bucket, zero when the row is absent. -/
def hmCount (hm : List (String × Int)) (h : String) : Int := (hmLookup hm h).getD 0

/-- Readynet insert with `on_conflict_do_nothing`. -/
def rnInsert (r : List (Nat × String)) (q : Nat) (h : String) : List (Nat × String) :=
  if (q, h) ∈ r then r else (q, h) :: r

/-- `SchedulerService.grep_hot_hashvals`: the hashvals among `hs` whose heatmap
row has `count ≥ hot_level`. -/
def grep_hot_hashvals (cfg : Config) (hm : List (String × Int)) (hs : List String) : List String :=
  (hm.filter (fun p => decide (p.1 ∈ hs) && decide (cfg.hot_level ≤ p.2))).map Prod.fst

/-- `SchedulerService.heatmap_put`: upsert-increment the bucket; if the new
count reaches `hot_level`, delete every readynet of that hashval. Returns the
new state and the new count. -/
def heatmap_put (cfg : Config) (s : SchedState) (h : String) : SchedState × Int :=
  let c := hmCount s.heatmap h + 1
  let hm := hmSet s.heatmap h c
  let rn := if cfg.hot_level ≤ c then s.readynets.filter (fun p => decide (¬ p.2 = h)) else s.readynets
  ({ s with heatmap := hm, readynets := rn }, c)

/-- The count written and returned by the upsert of `heatmap_pop`. -/
def popNewCount (hm : List (String × Int)) (h : String) : Int :=
  match hmLookup hm h with
  | some x => x - 1
  | none => 1

/-- `SchedulerService.heatmap_pop`: upsert-decrement the bucket (an absent row
is inserted with count 1, the upsert's insert branch); with `gc`, delete all
zero-count rows; if the count just crossed from `hot_level` to `hot_level - 1`,
insert a readynet for every queue holding a target in the bucket. -/
def heatmap_pop (cfg : Config) (s : SchedState) (h : String) (gc : Bool) : SchedState × Int :=
  let c := popNewCount s.heatmap h
  let hm1 := hmSet s.heatmap h c
  let hm2 := if gc then hm1.filter (fun p => decide (¬ p.2 = 0)) else hm1
  let rn := if c + 1 = cfg.hot_level then
      (((s.targets.filter (fun t => decide (t.hashval = h))).map (fun t => t.queue_id)).dedup).foldl
        (fun r q => (q, h) :: r) s.readynets
    else s.readynets
  ({ s with heatmap := hm2, readynets := rn }, c)

/-- The stripped, non-empty target strings accepted by `QueueManager.enqueue`. -/
def cleanedTargets (tgts : List String) : List String :=
  (tgts.map pystrip).filter (fun t => decide (¬ t = ""))

/-- The Target rows built by `QueueManager.enqueue`. -/
def enqueueRows (qid : Nat) (tgts : List String) : List TargetRow :=
  (cleanedTargets tgts).map (fun t => TargetRow.mk qid t (hashval t))

/-- The readynet inserts of `QueueManager.enqueue`: one per enqueued hashval
that is not hot, with `on_conflict_do_nothing`. -/
def enqueueFold (qid : Nat) (hot : List String) (hvs : List String)
    (rn0 : List (Nat × String)) : List (Nat × String) :=
  hvs.foldl (fun r h => if h ∈ hot then r else rnInsert r qid h) rn0

/-- `QueueManager.enqueue`: strip targets and drop empties, bulk-insert Target
rows, then add a readynet for each enqueued hashval that is not hot. -/
def enqueue (cfg : Config) (s : SchedState) (q : QueueRow) (tgts : List String) : SchedState :=
  if enqueueRows q.id tgts = [] then s
  else
    { s with
      targets := s.targets ++ enqueueRows q.id tgts,
      readynets := enqueueFold q.id
        (grep_hot_hashvals cfg s.heatmap (((cleanedTargets tgts).map hashval).dedup))
        (((cleanedTargets tgts).map hashval).dedup) s.readynets }

/-- `QueueManager.flush`: delete all Target and Readynet rows of the queue. -/
def flush (s : SchedState) (qid : Nat) : SchedState :=
  { s with
    targets := s.targets.filter (fun t => decide (¬ t.queue_id = qid)),
    readynets := s.readynets.filter (fun p => decide (¬ p.1 = qid)) }

/-- Result row of `SchedulerService._pop_random_target`. -/
structure RandomTarget where
  target : String
  hashval : String
deriving Repr, DecidableEq

/-- Effect of `_pop_random_target` once the victim row `t` in bucket `h` is
chosen: delete the row, and prune the readynet when the queue has no target
left in the bucket. -/
def mkPopResult (s : SchedState) (qid : Nat) (h : String) (t : TargetRow) (o : List Nat) :
    Option RandomTarget × SchedState × List Nat :=
  (some ⟨t.target, h⟩,
    { s with
      targets := s.targets.erase t,
      readynets :=
        if ((s.targets.erase t).filter
            (fun t2 => decide (t2.queue_id = qid ∧ t2.hashval = h))).isEmpty then
          s.readynets.filter (fun p => decide (¬ (p.1 = qid ∧ p.2 = h)))
        else s.readynets },
    o)

/-- Random choice of the Target row of the queue within bucket `h`. -/
def popWithBucket (s : SchedState) (qid : Nat) (h : String) (o : List Nat) :
    Option RandomTarget × SchedState × List Nat :=
  match s.targets.filter (fun t => decide (t.queue_id = qid ∧ t.hashval = h)) with
  | [] => (none, s, o)
  | t0 :: ts =>
    mkPopResult s qid h ((t0 :: ts).getD (o.headD 0 % (t0 :: ts).length) default) o.tail

/-- `SchedulerService._pop_random_target`: pick a random readynet of the queue,
then a random Target row in its bucket, delete that row, and prune the readynet
when the queue has no target left in the bucket. -/
def popRandomTarget (s : SchedState) (qid : Nat) (o : List Nat) :
    Option RandomTarget × SchedState × List Nat :=
  match s.readynets.filter (fun p => decide (p.1 = qid)) with
  | [] => (none, s, o)
  | r :: rs =>
    popWithBucket s qid (((r :: rs).getD (o.headD 0 % (r :: rs).length) (0, "")).2) o.tail

/-- The candidate queues of `SchedulerService._get_assignment_queue`: active,
requirement set contained in the client capabilities, at least one readynet,
matching the optional name. -/
def queueCands (cfg : Config) (s : SchedState) (qname : Option String)
    (caps : List String) : List QueueRow :=
  cfg.queues.filter (fun q =>
    q.active && q.reqs.all (fun r => decide (r ∈ caps))
      && decide (q.id ∈ s.readynets.map Prod.fst)
      && (match qname with | none => true | some n => decide (q.name = n)))

/-- The maximal-priority band of the candidate queues (the results the
`ORDER BY priority DESC, random()` query can yield first). -/
def topBand (cands : List QueueRow) : List QueueRow :=
  cands.filter (fun q => cands.all (fun r => decide (r.priority ≤ q.priority)))

/-- `SchedulerService._get_assignment_queue`: one candidate queue of maximal
priority, random tiebreak. -/
def selectQueue (cfg : Config) (s : SchedState) (qname : Option String)
    (caps : List String) (o : List Nat) : Option QueueRow × List Nat :=
  match queueCands cfg s qname caps with
  | [] => (none, o)
  | c :: cs =>
    (some ((topBand (c :: cs)).getD (o.headD 0 % (topBand (c :: cs)).length) default), o.tail)

/-- The assignment loop of `SchedulerService.job_assign`: pop targets until the
group size is reached or the queue is exhausted; blacklisted targets are
discarded without a heatmap bump. The fuel dominates the target count, so the
source's `while` never exhausts it. -/
def assignLoop (cfg : Config) (qid : Nat) (gsize : Nat) :
    Nat → SchedState → List Nat → List String → SchedState × List String
  | 0, s, _, acc => (s, acc)
  | fuel + 1, s, o, acc =>
    if acc.length < gsize then
      match popRandomTarget s qid o with
      | (none, s1, _) => (s1, acc)
      | (some rt, s1, o1) =>
        if cfg.blacklist rt.target then assignLoop cfg qid gsize fuel s1 o1 acc
        else assignLoop cfg qid gsize fuel (heatmap_put cfg s1 rt.hashval).1 o1 (acc ++ [rt.target])
    else (s, acc)

/-- The tail of `job_assign`: if any targets were drawn, create the Job row
(`JobManager.create`) and return the assignment, else return nowork. -/
def finishAssign (cfg : Config) (q : QueueRow) (r : SchedState × List String) :
    SchedState × Option (Nat × List String) :=
  if r.2 = [] then (r.1, none)
  else
    ({ r.1 with
        jobs := r.1.jobs ++ [⟨r.1.next_job, q.id, r.2, none⟩],
        next_job := r.1.next_job + 1 },
      some (r.1.next_job, r.2))

/-- `SchedulerService.job_assign`: select a queue, draw up to `group_size`
targets, and persist a Job carrying the assignment; `none` models the empty
`{}` ("nowork") answer. -/
def job_assign (cfg : Config) (s : SchedState) (qname : Option String)
    (caps : List String) (o : List Nat) : SchedState × Option (Nat × List String) :=
  match selectQueue cfg s qname caps o with
  | (none, _) => (s, none)
  | (some q, o1) =>
    finishAssign cfg q (assignLoop cfg q.id q.group_size (s.targets.length + 1) s o1 [])

/-- The heatmap drain shared by `job_output` and `reconcile`: one
`heatmap_pop (hashval target)` per assigned target, GC coin from the oracle. -/
def drainTargets (cfg : Config) : List String → SchedState → List Nat → SchedState
  | [], s, _ => s
  | t :: ts, s, o =>
    drainTargets cfg ts (heatmap_pop cfg s (hashval t) (o.headD 0 % 2 == 1)).1 o.tail

/-- Sets the return value of the job with the given id. -/
def setRetval (jobs : List JobRow) (jid : Nat) (rv : Int) : List JobRow :=
  jobs.map (fun j2 => if j2.id = jid then { j2 with retval := some rv } else j2)

/-- `SchedulerService.job_output`: `JobManager.finish` (which sets `retval`
unconditionally) followed by one heatmap pop per assigned target. -/
def job_output (cfg : Config) (s : SchedState) (jid : Nat) (retval : Int)
    (o : List Nat) : SchedState :=
  match s.jobs.find? (fun j => decide (j.id = jid)) with
  | none => s
  | some j =>
    drainTargets cfg j.targets { s with jobs := setRetval s.jobs jid retval } o

/-- `JobManager.reconcile`: refuse (RuntimeError, modelled as `error`) when
`retval` is already set, else set `retval = -1` and pop the heatmap once per
assigned target. -/
def reconcile (cfg : Config) (s : SchedState) (jid : Nat) (o : List Nat) :
    Except Unit SchedState :=
  match s.jobs.find? (fun j => decide (j.id = jid)) with
  | none => .ok s
  | some j =>
    if j.retval ≠ none then .error ()
    else .ok (drainTargets cfg j.targets { s with jobs := setRetval s.jobs jid (-1) } o)

/-- The public operations quantified over in claim C1. -/
inductive Op where
  | enqueue (qid : Nat) (tgts : List String)
  | jobAssign (qname : Option String) (caps : List String)
  | jobOutput (jid : Nat) (retval : Int)
  | reconcileOp (jid : Nat)
  | flushOp (qid : Nat)

/-- One public operation against the state; a failed `reconcile` leaves the
state unchanged (the check precedes any write). -/
def applyOp (cfg : Config) (s : SchedState) : Op → List Nat → SchedState
  | .enqueue qid tgts, _ =>
    match cfg.queues.find? (fun q => decide (q.id = qid)) with
    | none => s
    | some q => enqueue cfg s q tgts
  | .jobAssign qn caps, o => (job_assign cfg s qn caps o).1
  | .jobOutput jid rv, o => job_output cfg s jid rv o
  | .reconcileOp jid, o =>
    match reconcile cfg s jid o with
    | .ok s1 => s1
    | .error _ => s
  | .flushOp qid, _ => flush s qid

/-- A sequence of operations, each with its oracle. -/
def runOps (cfg : Config) (s0 : SchedState) (l : List (Op × List Nat)) : SchedState :=
  l.foldl (fun s p => applyOp cfg s p.1 p.2) s0

/-- Well-formed use of the API: `job_output` is only submitted for a job that
is still running (`retval` null), as the spec's Job state machine demands. -/
def wfOp (s : SchedState) : Op → Bool
  | .jobOutput jid _ => s.jobs.all (fun j => decide (j.id = jid → j.retval = none))
  | _ => true

/-- Well-formedness of a whole run. -/
def wfRun (cfg : Config) : SchedState → List (Op × List Nat) → Bool
  | _, [] => true
  | s, p :: rest => wfOp s p.1 && wfRun cfg (applyOp cfg s p.1 p.2) rest

/-- Multiplicity of bucket `h` among the hashvals of a target list. -/
def occ (ts : List String) (h : String) : Nat := ts.countP (fun t => decide (hashval t = h))

/-- Heatmap contribution of the running jobs to bucket `h`. -/
def outstanding (jobs : List JobRow) (h : String) : Nat :=
  ((jobs.filter (fun j => decide (j.retval = none))).map (fun j => occ j.targets h)).sum

/-- Readynet soundness (claim C1): every readynet row has a matching Target row
and a cool bucket. -/
def Sound (cfg : Config) (s : SchedState) : Prop :=
  ∀ p ∈ s.readynets,
    (∃ t ∈ s.targets, t.queue_id = p.1 ∧ t.hashval = p.2) ∧
      hmCount s.heatmap p.2 < cfg.hot_level

instance (cfg : Config) (s : SchedState) : Decidable (Sound cfg s) := by
  unfold Sound; infer_instance

/-- Heatmap conservation: each bucket counts exactly the outstanding targets of
running jobs (spec §8, invariant 1). -/
def Conserv (s : SchedState) : Prop :=
  ∀ h, hmCount s.heatmap h = (outstanding s.jobs h : Int)

/-- Every Target row stores the hashval of its target string. -/
def HashOK (s : SchedState) : Prop := ∀ t ∈ s.targets, t.hashval = hashval t.target

/-- Heatmap keys are unique (the hashval column is a unique key). -/
def KeysOK (s : SchedState) : Prop := (s.heatmap.map Prod.fst).Nodup

instance (s : SchedState) : Decidable (KeysOK s) := by
  unfold KeysOK; infer_instance

/-- Job ids are unique and below the uuid source. -/
def JobsOK (s : SchedState) : Prop :=
  (s.jobs.map JobRow.id).Nodup ∧ ∀ j ∈ s.jobs, j.id < s.next_job

/-- The combined inductive invariant behind claim C1. -/
def Inv (cfg : Config) (s : SchedState) : Prop :=
  Sound cfg s ∧ Conserv s ∧ HashOK s ∧ KeysOK s ∧ JobsOK s

theorem getD_mod_mem {α : Type} {l : List α} (hl : ¬ l = []) (i : Nat) (d : α) :
    l.getD (i % l.length) d ∈ l := by
  have hlen : 0 < l.length := List.length_pos.mpr hl
  have hi : i % l.length < l.length := Nat.mod_lt _ hlen
  rw [List.getD_eq_getD_get? l d (i % l.length), List.get?_eq_get hi]
  exact l.get_mem _ _

theorem hmLookup_nil (h : String) : hmLookup [] h = none := rfl

theorem hmLookup_cons (p : String × Int) (ps : List (String × Int)) (h : String) :
    hmLookup (p :: ps) h = if p.1 = h then some p.2 else hmLookup ps h := by
  by_cases hp : p.1 = h
  · rw [if_pos hp]
    unfold hmLookup
    rw [List.find?_cons_of_pos _ (by simpa using hp)]
    rfl
  · rw [if_neg hp]
    unfold hmLookup
    rw [List.find?_cons_of_neg _ (by simpa using hp)]

theorem hmSet_nil (h : String) (c : Int) : hmSet [] h c = [(h, c)] := rfl

theorem hmSet_cons (p : String × Int) (ps : List (String × Int)) (h : String) (c : Int) :
    hmSet (p :: ps) h c = if p.1 = h then (h, c) :: ps else p :: hmSet ps h c := rfl

theorem hmLookup_hmSet_self (hm : List (String × Int)) (h : String) (c : Int) :
    hmLookup (hmSet hm h c) h = some c := by
  induction hm with
  | nil => rw [hmSet_nil, hmLookup_cons]; simp
  | cons p ps ih =>
    rw [hmSet_cons]
    by_cases hp : p.1 = h
    · rw [if_pos hp, hmLookup_cons]; simp
    · rw [if_neg hp, hmLookup_cons, if_neg hp]; exact ih

theorem hmLookup_hmSet_ne (hm : List (String × Int)) (h : String) (c : Int) {h2 : String}
    (hne : ¬ h2 = h) : hmLookup (hmSet hm h c) h2 = hmLookup hm h2 := by
  induction hm with
  | nil =>
    rw [hmSet_nil, hmLookup_cons, hmLookup_nil, if_neg (fun hh => hne hh.symm)]
  | cons p ps ih =>
    rw [hmSet_cons]
    by_cases hp : p.1 = h
    · rw [if_pos hp, hmLookup_cons, hmLookup_cons, if_neg (fun hh => hne hh.symm),
        if_neg (fun hh => hne (hh.symm.trans hp))]
    · rw [if_neg hp, hmLookup_cons, hmLookup_cons]
      by_cases hp2 : p.1 = h2
      · rw [if_pos hp2, if_pos hp2]
      · rw [if_neg hp2, if_neg hp2]; exact ih

theorem hmCount_hmSet_self (hm : List (String × Int)) (h : String) (c : Int) :
    hmCount (hmSet hm h c) h = c := by
  unfold hmCount; rw [hmLookup_hmSet_self]; rfl

theorem hmCount_hmSet_ne (hm : List (String × Int)) (h : String) (c : Int) {h2 : String}
    (hne : ¬ h2 = h) : hmCount (hmSet hm h c) h2 = hmCount hm h2 := by
  unfold hmCount; rw [hmLookup_hmSet_ne hm h c hne]

theorem mem_keys_hmSet {hm : List (String × Int)} {h : String} {c : Int} {k : String}
    (hk : k ∈ (hmSet hm h c).map Prod.fst) : k = h ∨ k ∈ hm.map Prod.fst := by
  induction hm with
  | nil =>
    rw [hmSet_nil] at hk
    simp only [List.map_cons, List.map_nil, List.mem_cons, List.not_mem_nil, or_false] at hk
    exact Or.inl hk
  | cons p ps ih =>
    rw [hmSet_cons] at hk
    by_cases hp : p.1 = h
    · rw [if_pos hp] at hk
      simp only [List.map_cons, List.mem_cons] at hk
      rcases hk with rfl | hk
      · exact Or.inl rfl
      · exact Or.inr (by simp only [List.map_cons, List.mem_cons]; exact Or.inr hk)
    · rw [if_neg hp] at hk
      simp only [List.map_cons, List.mem_cons] at hk ⊢
      rcases hk with rfl | hk
      · exact Or.inr (Or.inl rfl)
      · rcases ih hk with rfl | hk2
        · exact Or.inl rfl
        · exact Or.inr (Or.inr hk2)

theorem keys_hmSet_nodup {hm : List (String × Int)} (h : String) (c : Int)
    (hU : (hm.map Prod.fst).Nodup) : ((hmSet hm h c).map Prod.fst).Nodup := by
  induction hm with
  | nil => simp [hmSet_nil]
  | cons p ps ih =>
    rw [hmSet_cons]
    simp only [List.map_cons, List.nodup_cons] at hU
    by_cases hp : p.1 = h
    · rw [if_pos hp]
      simp only [List.map_cons, List.nodup_cons]
      exact ⟨hp ▸ hU.1, hU.2⟩
    · rw [if_neg hp]
      simp only [List.map_cons, List.nodup_cons]
      refine ⟨?_, ih hU.2⟩
      intro hmem
      rcases mem_keys_hmSet hmem with rfl | hmem2
      · exact hp rfl
      · exact hU.1 hmem2

theorem hmLookup_eq_none {hm : List (String × Int)} {h : String}
    (hk : h ∉ hm.map Prod.fst) : hmLookup hm h = none := by
  induction hm with
  | nil => rfl
  | cons p ps ih =>
    simp only [List.map_cons, List.mem_cons] at hk
    push_neg at hk
    rw [hmLookup_cons, if_neg (fun hh => hk.1 hh.symm)]
    exact ih hk.2

theorem keys_filter_subset {hm : List (String × Int)} {f : String × Int → Bool} {k : String}
    (hk : k ∈ (hm.filter f).map Prod.fst) : k ∈ hm.map Prod.fst := by
  rcases List.mem_map.mp hk with ⟨q, hq, rfl⟩
  exact List.mem_map.mpr ⟨q, (List.mem_filter.mp hq).1, rfl⟩

theorem hmCount_filter_zero {hm : List (String × Int)} (hU : (hm.map Prod.fst).Nodup)
    (h : String) :
    hmCount (hm.filter (fun p => decide (¬ p.2 = 0))) h = hmCount hm h := by
  induction hm with
  | nil => rfl
  | cons p ps ih =>
    simp only [List.map_cons, List.nodup_cons] at hU
    by_cases hz : p.2 = 0
    · rw [List.filter_cons_of_neg (by simp [hz])]
      by_cases hp : p.1 = h
      · have hnone2 : hmLookup (ps.filter (fun p => decide (¬ p.2 = 0))) h = none :=
          hmLookup_eq_none (fun hmm => hU.1 (hp ▸ keys_filter_subset hmm))
        unfold hmCount
        rw [hmLookup_cons, if_pos hp, hnone2]
        simp [hz]
      · unfold hmCount
        rw [hmLookup_cons, if_neg hp]
        exact ih hU.2
    · rw [List.filter_cons_of_pos (by simp [hz])]
      unfold hmCount
      rw [hmLookup_cons, hmLookup_cons]
      by_cases hp : p.1 = h
      · rw [if_pos hp, if_pos hp]
      · rw [if_neg hp, if_neg hp]
        exact ih hU.2

theorem occ_nil (h : String) : occ [] h = 0 := rfl

theorem occ_cons (t : String) (ts : List String) (h : String) :
    occ (t :: ts) h = occ ts h + (if hashval t = h then 1 else 0) := by
  unfold occ
  rw [List.countP_cons]
  by_cases ht : hashval t = h <;> simp [ht]

theorem outstanding_nil (h : String) : outstanding [] h = 0 := rfl

theorem outstanding_cons (j : JobRow) (js : List JobRow) (h : String) :
    outstanding (j :: js) h =
      (if j.retval = none then occ j.targets h else 0) + outstanding js h := by
  unfold outstanding
  by_cases hj : j.retval = none
  · rw [List.filter_cons_of_pos (by simp [hj])]
    simp [hj]
  · rw [List.filter_cons_of_neg (by simp [hj])]
    simp [hj]

theorem outstanding_append (l1 l2 : List JobRow) (h : String) :
    outstanding (l1 ++ l2) h = outstanding l1 h + outstanding l2 h := by
  induction l1 with
  | nil => simp [outstanding_nil, outstanding]
  | cons j js ih =>
    rw [List.cons_append, outstanding_cons, outstanding_cons, ih]
    omega

theorem setRetval_cons (x : JobRow) (xs : List JobRow) (jid : Nat) (rv : Int) :
    setRetval (x :: xs) jid rv =
      (if x.id = jid then { x with retval := some rv } else x) :: setRetval xs jid rv := rfl

theorem setRetval_eq_self {jobs : List JobRow} {jid : Nat} (rv : Int)
    (hid : ∀ j2 ∈ jobs, ¬ j2.id = jid) : setRetval jobs jid rv = jobs := by
  induction jobs with
  | nil => rfl
  | cons x xs ih =>
    rw [setRetval_cons, if_neg (hid x (List.mem_cons_self x xs)),
      ih (fun y hy => hid y (List.mem_cons_of_mem x hy))]

theorem setRetval_ids (jobs : List JobRow) (jid : Nat) (rv : Int) :
    (setRetval jobs jid rv).map JobRow.id = jobs.map JobRow.id := by
  unfold setRetval
  rw [List.map_map]
  refine List.map_congr_left ?_
  intro j2 _
  by_cases hj : j2.id = jid <;> simp [hj]

theorem outstanding_setRetval {jobs : List JobRow} {jid : Nat} {j : JobRow}
    (hnd : (jobs.map JobRow.id).Nodup)
    (hfind : jobs.find? (fun j2 => decide (j2.id = jid)) = some j)
    (hrun : j.retval = none) (rv : Int) (h : String) :
    outstanding jobs h = outstanding (setRetval jobs jid rv) h + occ j.targets h := by
  induction jobs with
  | nil => simp [List.find?] at hfind
  | cons x xs ih =>
    simp only [List.map_cons, List.nodup_cons] at hnd
    by_cases hx : x.id = jid
    · rw [List.find?_cons_of_pos _ (by simpa using hx)] at hfind
      injection hfind with hfind
      subst hfind
      have htail : setRetval xs jid rv = xs := by
        refine setRetval_eq_self rv ?_
        intro y hy hyid
        exact hnd.1 (by rw [hx, ← hyid]; exact List.mem_map.mpr ⟨y, hy, rfl⟩)
      rw [setRetval_cons, if_pos hx, htail, outstanding_cons, outstanding_cons, if_pos hrun,
        if_neg (show ¬ ({ x with retval := some rv } : JobRow).retval = none by simp)]
      omega
    · rw [List.find?_cons_of_neg _ (by simpa using hx)] at hfind
      rw [setRetval_cons, if_neg hx, outstanding_cons, outstanding_cons]
      have := ih hnd.2 hfind
      omega

theorem heatmap_put_targets (cfg : Config) (s : SchedState) (h : String) :
    (heatmap_put cfg s h).1.targets = s.targets := rfl

theorem heatmap_put_jobs (cfg : Config) (s : SchedState) (h : String) :
    (heatmap_put cfg s h).1.jobs = s.jobs := rfl

theorem heatmap_put_next (cfg : Config) (s : SchedState) (h : String) :
    (heatmap_put cfg s h).1.next_job = s.next_job := rfl

theorem heatmap_put_snd (cfg : Config) (s : SchedState) (h : String) :
    (heatmap_put cfg s h).2 = hmCount s.heatmap h + 1 := rfl

theorem heatmap_put_heatmap (cfg : Config) (s : SchedState) (h : String) :
    (heatmap_put cfg s h).1.heatmap = hmSet s.heatmap h (hmCount s.heatmap h + 1) := rfl

theorem heatmap_put_readynets (cfg : Config) (s : SchedState) (h : String) :
    (heatmap_put cfg s h).1.readynets =
      if cfg.hot_level ≤ hmCount s.heatmap h + 1 then
        s.readynets.filter (fun p => decide (¬ p.2 = h))
      else s.readynets := rfl

theorem hmCount_put_self (cfg : Config) (s : SchedState) (h : String) :
    hmCount (heatmap_put cfg s h).1.heatmap h = hmCount s.heatmap h + 1 := by
  rw [heatmap_put_heatmap, hmCount_hmSet_self]

theorem hmCount_put_ne (cfg : Config) (s : SchedState) (h : String) {h2 : String}
    (hne : ¬ h2 = h) : hmCount (heatmap_put cfg s h).1.heatmap h2 = hmCount s.heatmap h2 := by
  rw [heatmap_put_heatmap, hmCount_hmSet_ne _ _ _ hne]

theorem put_sound (cfg : Config) (s : SchedState) (h : String) (hS : Sound cfg s) :
    Sound cfg (heatmap_put cfg s h).1 := by
  intro p hp
  rw [heatmap_put_readynets] at hp
  by_cases hhot : cfg.hot_level ≤ hmCount s.heatmap h + 1
  · rw [if_pos hhot] at hp
    have hp2 := List.mem_filter.mp hp
    have hne : ¬ p.2 = h := by simpa using hp2.2
    have hS2 := hS p hp2.1
    refine ⟨by rw [heatmap_put_targets]; exact hS2.1, ?_⟩
    rw [hmCount_put_ne cfg s h hne]
    exact hS2.2
  · rw [if_neg hhot] at hp
    have hS2 := hS p hp
    refine ⟨by rw [heatmap_put_targets]; exact hS2.1, ?_⟩
    by_cases hph : p.2 = h
    · rw [hph, hmCount_put_self]
      omega
    · rw [hmCount_put_ne cfg s h hph]
      exact hS2.2

theorem put_keys (cfg : Config) (s : SchedState) (h : String) (hU : KeysOK s) :
    KeysOK (heatmap_put cfg s h).1 := by
  unfold KeysOK at *
  rw [heatmap_put_heatmap]
  exact keys_hmSet_nodup _ _ hU

theorem heatmap_pop_targets (cfg : Config) (s : SchedState) (h : String) (gc : Bool) :
    (heatmap_pop cfg s h gc).1.targets = s.targets := rfl

theorem heatmap_pop_jobs (cfg : Config) (s : SchedState) (h : String) (gc : Bool) :
    (heatmap_pop cfg s h gc).1.jobs = s.jobs := rfl

theorem heatmap_pop_next (cfg : Config) (s : SchedState) (h : String) (gc : Bool) :
    (heatmap_pop cfg s h gc).1.next_job = s.next_job := rfl

theorem heatmap_pop_snd (cfg : Config) (s : SchedState) (h : String) (gc : Bool) :
    (heatmap_pop cfg s h gc).2 = popNewCount s.heatmap h := rfl

theorem heatmap_pop_heatmap (cfg : Config) (s : SchedState) (h : String) (gc : Bool) :
    (heatmap_pop cfg s h gc).1.heatmap =
      if gc then
        (hmSet s.heatmap h (popNewCount s.heatmap h)).filter (fun p => decide (¬ p.2 = 0))
      else hmSet s.heatmap h (popNewCount s.heatmap h) := rfl

theorem heatmap_pop_readynets (cfg : Config) (s : SchedState) (h : String) (gc : Bool) :
    (heatmap_pop cfg s h gc).1.readynets =
      if popNewCount s.heatmap h + 1 = cfg.hot_level then
        (((s.targets.filter (fun t => decide (t.hashval = h))).map
          (fun t => t.queue_id)).dedup).foldl (fun r q => (q, h) :: r) s.readynets
      else s.readynets := rfl

theorem popNewCount_of_pos {hm : List (String × Int)} {h : String}
    (hpos : 1 ≤ hmCount hm h) :
    popNewCount hm h = hmCount hm h - 1 ∧ hmLookup hm h = some (hmCount hm h) := by
  unfold hmCount at *
  rcases hl : hmLookup hm h with _ | x
  · rw [hl] at hpos; simp at hpos
  · unfold popNewCount
    rw [hl]
    simp

theorem hmCount_pop_self (cfg : Config) (s : SchedState) (h : String) (gc : Bool)
    (hU : KeysOK s) :
    hmCount (heatmap_pop cfg s h gc).1.heatmap h = popNewCount s.heatmap h := by
  rw [heatmap_pop_heatmap]
  by_cases hgc : gc = true
  · rw [if_pos hgc, hmCount_filter_zero (keys_hmSet_nodup _ _ hU), hmCount_hmSet_self]
  · rw [if_neg hgc, hmCount_hmSet_self]

theorem hmCount_pop_ne (cfg : Config) (s : SchedState) (h : String) (gc : Bool)
    {h2 : String} (hne : ¬ h2 = h) (hU : KeysOK s) :
    hmCount (heatmap_pop cfg s h gc).1.heatmap h2 = hmCount s.heatmap h2 := by
  rw [heatmap_pop_heatmap]
  by_cases hgc : gc = true
  · rw [if_pos hgc, hmCount_filter_zero (keys_hmSet_nodup _ _ hU),
      hmCount_hmSet_ne _ _ _ hne]
  · rw [if_neg hgc, hmCount_hmSet_ne _ _ _ hne]

theorem pop_keys (cfg : Config) (s : SchedState) (h : String) (gc : Bool) (hU : KeysOK s) :
    KeysOK (heatmap_pop cfg s h gc).1 := by
  unfold KeysOK at *
  rw [heatmap_pop_heatmap]
  by_cases hgc : gc = true
  · rw [if_pos hgc]
    exact (keys_hmSet_nodup _ _ hU).sublist ((List.filter_sublist _).map Prod.fst)
  · rw [if_neg hgc]
    exact keys_hmSet_nodup _ _ hU

theorem mem_foldl_rncons {h : String} :
    ∀ (qs : List Nat) (r0 : List (Nat × String)) (p : Nat × String),
      p ∈ qs.foldl (fun r q => (q, h) :: r) r0 ↔ p ∈ r0 ∨ ∃ q ∈ qs, p = (q, h)
  | [], r0, p => by simp
  | q0 :: qs, r0, p => by
    rw [List.foldl_cons, mem_foldl_rncons qs ((q0, h) :: r0) p]
    simp only [List.mem_cons]
    constructor
    · rintro ((rfl | hp) | ⟨q, hq, rfl⟩)
      · exact Or.inr ⟨q0, Or.inl rfl, rfl⟩
      · exact Or.inl hp
      · exact Or.inr ⟨q, Or.inr hq, rfl⟩
    · rintro (hp | ⟨q, (rfl | hq), rfl⟩)
      · exact Or.inl (Or.inr hp)
      · exact Or.inl (Or.inl rfl)
      · exact Or.inr ⟨q, hq, rfl⟩

theorem pop_sound (cfg : Config) (s : SchedState) (h : String) (gc : Bool)
    (hS : Sound cfg s) (hU : KeysOK s) (hpos : 1 ≤ hmCount s.heatmap h) :
    Sound cfg (heatmap_pop cfg s h gc).1 := by
  have hpc := popNewCount_of_pos hpos
  intro p hp
  rw [heatmap_pop_readynets] at hp
  constructor
  · rw [heatmap_pop_targets]
    by_cases hcool : popNewCount s.heatmap h + 1 = cfg.hot_level
    · rw [if_pos hcool] at hp
      rcases (mem_foldl_rncons _ _ _).mp hp with hp | ⟨q, hq, rfl⟩
      · exact (hS p hp).1
      · rw [List.mem_dedup] at hq
        rcases List.mem_map.mp hq with ⟨t, ht, rfl⟩
        have ht2 := List.mem_filter.mp ht
        exact ⟨t, ht2.1, rfl, by simpa using ht2.2⟩
    · rw [if_neg hcool] at hp
      exact (hS p hp).1
  · by_cases hph : p.2 = h
    · rw [hph, hmCount_pop_self cfg s h gc hU, hpc.1]
      by_cases hcool : popNewCount s.heatmap h + 1 = cfg.hot_level
      · have hc2 : hmCount s.heatmap h - 1 + 1 = cfg.hot_level := by
          rw [← hpc.1]; exact hcool
        omega
      · rw [if_neg hcool] at hp
        have := (hS p hp).2
        rw [hph] at this
        omega
    · rw [hmCount_pop_ne cfg s h gc hph hU]
      by_cases hcool : popNewCount s.heatmap h + 1 = cfg.hot_level
      · rw [if_pos hcool] at hp
        rcases (mem_foldl_rncons _ _ _).mp hp with hp | ⟨q, hq, rfl⟩
        · exact (hS p hp).2
        · exact absurd rfl hph
      · rw [if_neg hcool] at hp
        exact (hS p hp).2

theorem drainTargets_spec (cfg : Config) (ts : List String) :
    ∀ (s : SchedState) (o : List Nat),
      Sound cfg s → KeysOK s →
      (∀ h, (occ ts h : Int) ≤ hmCount s.heatmap h) →
      Sound cfg (drainTargets cfg ts s o) ∧ KeysOK (drainTargets cfg ts s o) ∧
        (∀ h, hmCount (drainTargets cfg ts s o).heatmap h =
          hmCount s.heatmap h - occ ts h) ∧
        (drainTargets cfg ts s o).targets = s.targets ∧
        (drainTargets cfg ts s o).jobs = s.jobs ∧
        (drainTargets cfg ts s o).next_job = s.next_job := by
  induction ts with
  | nil =>
    intro s o hS hU _
    refine ⟨hS, hU, ?_, rfl, rfl, rfl⟩
    intro h
    rw [show drainTargets cfg [] s o = s from rfl, occ_nil]
    simp
  | cons t ts ih =>
    intro s o hS hU hcnt
    have hpos : 1 ≤ hmCount s.heatmap (hashval t) := by
      have := hcnt (hashval t)
      rw [occ_cons, if_pos rfl] at this
      push_cast at this
      omega
    have hS1 := pop_sound cfg s (hashval t) (o.headD 0 % 2 == 1) hS hU hpos
    have hU1 := pop_keys cfg s (hashval t) (o.headD 0 % 2 == 1) hU
    have hkey : hmCount (heatmap_pop cfg s (hashval t) (o.headD 0 % 2 == 1)).1.heatmap
        (hashval t) = hmCount s.heatmap (hashval t) - 1 := by
      rw [hmCount_pop_self cfg s (hashval t) _ hU, (popNewCount_of_pos hpos).1]
    have hcnt1 : ∀ h, (occ ts h : Int) ≤
        hmCount (heatmap_pop cfg s (hashval t) (o.headD 0 % 2 == 1)).1.heatmap h := by
      intro h
      by_cases hh : h = hashval t
      · subst hh
        rw [hkey]
        have := hcnt (hashval t)
        rw [occ_cons, if_pos rfl] at this
        push_cast at this
        omega
      · rw [hmCount_pop_ne cfg s (hashval t) _ hh hU]
        have := hcnt h
        rw [occ_cons, if_neg (fun hhh => hh hhh.symm)] at this
        push_cast at this
        omega
    obtain ⟨A, B, C, D, E, F⟩ :=
      ih (heatmap_pop cfg s (hashval t) (o.headD 0 % 2 == 1)).1 o.tail hS1 hU1 hcnt1
    rw [show drainTargets cfg (t :: ts) s o = drainTargets cfg ts
      (heatmap_pop cfg s (hashval t) (o.headD 0 % 2 == 1)).1 o.tail from rfl]
    refine ⟨A, B, ?_, ?_, ?_, ?_⟩
    · intro h
      rw [C h]
      by_cases hh : h = hashval t
      · subst hh
        rw [hkey, occ_cons, if_pos rfl]
        push_cast
        omega
      · rw [hmCount_pop_ne cfg s (hashval t) _ hh hU, occ_cons,
          if_neg (fun hhh => hh hhh.symm)]
        push_cast
        omega
    · rw [D, heatmap_pop_targets]
    · rw [E, heatmap_pop_jobs]
    · rw [F, heatmap_pop_next]

theorem mkPopResult_fst (s : SchedState) (qid : Nat) (h : String) (t : TargetRow)
    (o : List Nat) : (mkPopResult s qid h t o).1 = some ⟨t.target, h⟩ := rfl

theorem mkPopResult_targets (s : SchedState) (qid : Nat) (h : String) (t : TargetRow)
    (o : List Nat) : (mkPopResult s qid h t o).2.1.targets = s.targets.erase t := rfl

theorem mkPopResult_heatmap (s : SchedState) (qid : Nat) (h : String) (t : TargetRow)
    (o : List Nat) : (mkPopResult s qid h t o).2.1.heatmap = s.heatmap := rfl

theorem mkPopResult_jobs (s : SchedState) (qid : Nat) (h : String) (t : TargetRow)
    (o : List Nat) : (mkPopResult s qid h t o).2.1.jobs = s.jobs := rfl

theorem mkPopResult_next (s : SchedState) (qid : Nat) (h : String) (t : TargetRow)
    (o : List Nat) : (mkPopResult s qid h t o).2.1.next_job = s.next_job := rfl

theorem mkPopResult_readynets (s : SchedState) (qid : Nat) (h : String) (t : TargetRow)
    (o : List Nat) :
    (mkPopResult s qid h t o).2.1.readynets =
      if ((s.targets.erase t).filter
          (fun t2 => decide (t2.queue_id = qid ∧ t2.hashval = h))).isEmpty then
        s.readynets.filter (fun p => decide (¬ (p.1 = qid ∧ p.2 = h)))
      else s.readynets := rfl

theorem popWithBucket_spec (s : SchedState) (qid : Nat) (h : String) (o : List Nat) :
    ((popWithBucket s qid h o).1 = none ∧ (popWithBucket s qid h o).2.1 = s) ∨
    (∃ t, t ∈ s.targets ∧ t.queue_id = qid ∧ t.hashval = h ∧
      (popWithBucket s qid h o).1 = some ⟨t.target, h⟩ ∧
      (popWithBucket s qid h o).2.1.targets = s.targets.erase t ∧
      (popWithBucket s qid h o).2.1.heatmap = s.heatmap ∧
      (popWithBucket s qid h o).2.1.jobs = s.jobs ∧
      (popWithBucket s qid h o).2.1.next_job = s.next_job ∧
      ((popWithBucket s qid h o).2.1.readynets = s.readynets ∧
          ¬ (s.targets.erase t).filter
            (fun t2 => decide (t2.queue_id = qid ∧ t2.hashval = h)) = [] ∨
        (popWithBucket s qid h o).2.1.readynets =
          s.readynets.filter (fun p => decide (¬ (p.1 = qid ∧ p.2 = h))))) := by
  rcases hts : s.targets.filter (fun t => decide (t.queue_id = qid ∧ t.hashval = h)) with
    _ | ⟨t0, ts2⟩
  · have hred : popWithBucket s qid h o = (none, s, o) := by
      unfold popWithBucket; rw [hts]
    rw [hred]
    exact Or.inl ⟨rfl, rfl⟩
  · obtain ⟨tsel, htsel⟩ :
        ∃ tsel, (t0 :: ts2).getD (o.headD 0 % (t0 :: ts2).length) default = tsel := ⟨_, rfl⟩
    have hred : popWithBucket s qid h o = mkPopResult s qid h tsel o.tail := by
      unfold popWithBucket
      rw [hts]
      exact congrArg (fun t => mkPopResult s qid h t o.tail) htsel
    have htmem0 : tsel ∈ t0 :: ts2 := htsel ▸ getD_mod_mem (by simp) _ _
    have htmem1 : tsel ∈ s.targets.filter
        (fun t => decide (t.queue_id = qid ∧ t.hashval = h)) := by
      rw [hts]; exact htmem0
    have htfacts := List.mem_filter.mp htmem1
    have htq : tsel.queue_id = qid ∧ tsel.hashval = h := by simpa using htfacts.2
    rw [hred]
    refine Or.inr ⟨tsel, htfacts.1, htq.1, htq.2, mkPopResult_fst s qid h tsel o.tail,
      mkPopResult_targets s qid h tsel o.tail, mkPopResult_heatmap s qid h tsel o.tail,
      mkPopResult_jobs s qid h tsel o.tail, mkPopResult_next s qid h tsel o.tail, ?_⟩
    by_cases hrem : ((s.targets.erase tsel).filter
        (fun t2 => decide (t2.queue_id = qid ∧ t2.hashval = h))).isEmpty = true
    · exact Or.inr (by rw [mkPopResult_readynets, if_pos hrem])
    · refine Or.inl ⟨by rw [mkPopResult_readynets, if_neg hrem],
        fun hcon => hrem (by rw [hcon]; rfl)⟩

theorem popRandomTarget_spec (s : SchedState) (qid : Nat) (o : List Nat) :
    ((popRandomTarget s qid o).1 = none ∧ (popRandomTarget s qid o).2.1 = s) ∨
    (∃ t, t ∈ s.targets ∧ t.queue_id = qid ∧
      (popRandomTarget s qid o).1 = some ⟨t.target, t.hashval⟩ ∧
      (popRandomTarget s qid o).2.1.targets = s.targets.erase t ∧
      (popRandomTarget s qid o).2.1.heatmap = s.heatmap ∧
      (popRandomTarget s qid o).2.1.jobs = s.jobs ∧
      (popRandomTarget s qid o).2.1.next_job = s.next_job ∧
      ((popRandomTarget s qid o).2.1.readynets = s.readynets ∧
          ¬ (s.targets.erase t).filter
            (fun t2 => decide (t2.queue_id = qid ∧ t2.hashval = t.hashval)) = [] ∨
        (popRandomTarget s qid o).2.1.readynets =
          s.readynets.filter (fun p => decide (¬ (p.1 = qid ∧ p.2 = t.hashval))))) := by
  rcases hrns : s.readynets.filter (fun p => decide (p.1 = qid)) with _ | ⟨r0, rs⟩
  · have hred : popRandomTarget s qid o = (none, s, o) := by
      unfold popRandomTarget; rw [hrns]
    rw [hred]
    exact Or.inl ⟨rfl, rfl⟩
  · have hred : popRandomTarget s qid o = popWithBucket s qid
        (((r0 :: rs).getD (o.headD 0 % (r0 :: rs).length) (0, "")).2) o.tail := by
      unfold popRandomTarget; rw [hrns]
    rw [hred]
    rcases popWithBucket_spec s qid
      (((r0 :: rs).getD (o.headD 0 % (r0 :: rs).length) (0, "")).2) o.tail with
      hcase | ⟨t, htmem, htq, hth, hfst, htar, hhm, hjobs, hnext, hrn⟩
    · exact Or.inl hcase
    · refine Or.inr ⟨t, htmem, htq, ?_, htar, hhm, hjobs, hnext, ?_⟩
      · rw [hfst, hth]
      · rw [hth]
        exact hrn

theorem pop_target_sound (cfg : Config) (s : SchedState) (qid : Nat) (o : List Nat)
    (hS : Sound cfg s) : Sound cfg (popRandomTarget s qid o).2.1 := by
  rcases popRandomTarget_spec s qid o with ⟨_, hsame⟩ |
    ⟨t, htmem, htq, _, htar, hhm, _, _, hrn⟩
  · rw [hsame]; exact hS
  · intro p hp
    have hpold : p ∈ s.readynets := by
      rcases hrn with ⟨hre, _⟩ | hre
      · rw [hre] at hp; exact hp
      · rw [hre] at hp; exact (List.mem_filter.mp hp).1
    refine ⟨?_, by rw [hhm]; exact (hS p hpold).2⟩
    rw [htar]
    by_cases hpqh : p.1 = qid ∧ p.2 = t.hashval
    · rcases hrn with ⟨hre, hnonempty⟩ | hre
      · rcases List.exists_mem_of_ne_nil _ hnonempty with ⟨t2, ht2⟩
        have ht2f := List.mem_filter.mp ht2
        have ht2p : t2.queue_id = qid ∧ t2.hashval = t.hashval := by simpa using ht2f.2
        exact ⟨t2, ht2f.1, hpqh.1 ▸ ht2p.1, hpqh.2 ▸ ht2p.2⟩
      · rw [hre] at hp
        have := (List.mem_filter.mp hp).2
        simp only [decide_eq_true_iff] at this
        exact absurd hpqh this
    · rcases (hS p hpold).1 with ⟨t2, ht2mem, ht2q, ht2h⟩
      have hne : ¬ t2 = t := by
        intro hcon
        subst hcon
        exact hpqh ⟨ht2q.symm.trans (ht2q.symm ▸ htq), ht2h.symm⟩
      exact ⟨t2, (List.mem_erase_of_ne hne).mpr ht2mem, ht2q, ht2h⟩

theorem pop_target_effects (s : SchedState) (qid : Nat) (o : List Nat) :
    (popRandomTarget s qid o).2.1.heatmap = s.heatmap ∧
    (popRandomTarget s qid o).2.1.jobs = s.jobs ∧
    (popRandomTarget s qid o).2.1.next_job = s.next_job ∧
    List.Sublist (popRandomTarget s qid o).2.1.targets s.targets ∧
    List.Sublist (popRandomTarget s qid o).2.1.readynets s.readynets := by
  rcases popRandomTarget_spec s qid o with ⟨_, hsame⟩ |
    ⟨t, _, _, _, htar, hhm, hjobs, hnext, hrn⟩
  · rw [hsame]
    exact ⟨rfl, rfl, rfl, List.Sublist.refl _, List.Sublist.refl _⟩
  · refine ⟨hhm, hjobs, hnext, by rw [htar]; exact List.erase_sublist t s.targets, ?_⟩
    rcases hrn with ⟨hre, _⟩ | hre
    · rw [hre]
    · rw [hre]; exact List.filter_sublist s.readynets

theorem pop_target_hashok {s : SchedState} (qid : Nat) (o : List Nat) (hH : HashOK s) :
    HashOK (popRandomTarget s qid o).2.1 := by
  intro t2 ht2
  exact hH t2 ((pop_target_effects s qid o).2.2.2.1.mem ht2)

theorem mem_enqueueFold {qid : Nat} {hot : List String} :
    ∀ (hvs : List String) (rn0 : List (Nat × String)) (p : Nat × String),
      p ∈ enqueueFold qid hot hvs rn0 → p ∈ rn0 ∨ ∃ h ∈ hvs, ¬ h ∈ hot ∧ p = (qid, h)
  | [], _, p, hp => Or.inl hp
  | h0 :: hvs, rn0, p, hp => by
    rw [enqueueFold, List.foldl_cons] at hp
    rcases mem_enqueueFold hvs (if h0 ∈ hot then rn0 else rnInsert rn0 qid h0) p hp with
      hp2 | ⟨h, hh, hhot, rfl⟩
    · by_cases hh0 : h0 ∈ hot
      · rw [if_pos hh0] at hp2
        exact Or.inl hp2
      · rw [if_neg hh0] at hp2
        unfold rnInsert at hp2
        by_cases hmem : (qid, h0) ∈ rn0
        · rw [if_pos hmem] at hp2; exact Or.inl hp2
        · rw [if_neg hmem] at hp2
          rcases List.mem_cons.mp hp2 with rfl | hp3
          · exact Or.inr ⟨h0, List.mem_cons_self _ _, hh0, rfl⟩
          · exact Or.inl hp3
    · exact Or.inr ⟨h, List.mem_cons_of_mem _ hh, hhot, rfl⟩

theorem count_lt_of_not_hot {cfg : Config} {hm : List (String × Int)} {hvs : List String}
    {h : String} (hmem : h ∈ hvs) (hnh : ¬ h ∈ grep_hot_hashvals cfg hm hvs)
    (hhot : 1 ≤ cfg.hot_level) : hmCount hm h < cfg.hot_level := by
  unfold hmCount
  rcases hl : hmLookup hm h with _ | c
  · simp; omega
  · simp only [Option.getD_some]
    by_contra hge
    push_neg at hge
    apply hnh
    unfold hmLookup at hl
    rcases hfind : hm.find? (fun p => decide (p.1 = h)) with _ | p
    · rw [hfind] at hl; cases hl
    · rw [hfind] at hl
      have hp1 : p.1 = h := by simpa using List.find?_some hfind
      have hpmem := List.mem_of_find?_eq_some hfind
      have hp2 : p.2 = c := by
        have hl2 : some p.2 = some c := hl
        injection hl2
      unfold grep_hot_hashvals
      refine List.mem_map.mpr ⟨p, List.mem_filter.mpr ⟨hpmem, ?_⟩, hp1⟩
      simp only [Bool.and_eq_true, decide_eq_true_iff]
      exact ⟨hp1 ▸ hmem, by rw [hp2]; exact hge⟩

theorem enqueue_sound (cfg : Config) (s : SchedState) (q : QueueRow) (tgts : List String)
    (hS : Sound cfg s) (hhot : 1 ≤ cfg.hot_level) : Sound cfg (enqueue cfg s q tgts) := by
  unfold enqueue
  by_cases he : enqueueRows q.id tgts = []
  · rw [if_pos he]; exact hS
  · rw [if_neg he]
    intro p hp
    rcases mem_enqueueFold _ _ _ hp with hp2 | ⟨h, hh, hnhot, rfl⟩
    · obtain ⟨⟨t, ht, htq, hth⟩, hc⟩ := hS p hp2
      exact ⟨⟨t, List.mem_append.mpr (Or.inl ht), htq, hth⟩, hc⟩
    · constructor
      · have hh2 := hh
        rw [List.mem_dedup] at hh2
        rcases List.mem_map.mp hh2 with ⟨t0, ht0, rfl⟩
        refine ⟨TargetRow.mk q.id t0 (hashval t0), ?_, rfl, rfl⟩
        exact List.mem_append.mpr (Or.inr (List.mem_map.mpr ⟨t0, ht0, rfl⟩))
      · exact count_lt_of_not_hot hh hnhot hhot

theorem enqueue_effects (cfg : Config) (s : SchedState) (q : QueueRow) (tgts : List String) :
    (enqueue cfg s q tgts).heatmap = s.heatmap ∧
    (enqueue cfg s q tgts).jobs = s.jobs ∧
    (enqueue cfg s q tgts).next_job = s.next_job ∧
    (HashOK s → HashOK (enqueue cfg s q tgts)) := by
  unfold enqueue
  by_cases he : enqueueRows q.id tgts = []
  · rw [if_pos he]; exact ⟨rfl, rfl, rfl, fun hh => hh⟩
  · rw [if_neg he]
    refine ⟨rfl, rfl, rfl, ?_⟩
    intro hH t ht
    rcases List.mem_append.mp ht with ht2 | ht2
    · exact hH t ht2
    · rcases List.mem_map.mp ht2 with ⟨t0, _, rfl⟩
      rfl

theorem flush_sound (cfg : Config) (s : SchedState) (qid : Nat) (hS : Sound cfg s) :
    Sound cfg (flush s qid) := by
  intro p hp
  have hp2 := List.mem_filter.mp hp
  have hpq : ¬ p.1 = qid := by simpa using hp2.2
  obtain ⟨⟨t, ht, htq, hth⟩, hc⟩ := hS p hp2.1
  refine ⟨⟨t, ?_, htq, hth⟩, hc⟩
  refine List.mem_filter.mpr ⟨ht, ?_⟩
  simp only [decide_eq_true_iff]
  intro hcon
  rw [htq] at hcon
  exact hpq hcon

theorem flush_effects (s : SchedState) (qid : Nat) :
    (flush s qid).heatmap = s.heatmap ∧ (flush s qid).jobs = s.jobs ∧
    (flush s qid).next_job = s.next_job ∧ (HashOK s → HashOK (flush s qid)) := by
  refine ⟨rfl, rfl, rfl, ?_⟩
  intro hH t ht
  exact hH t (List.mem_filter.mp ht).1

theorem exists_max_priority :
    ∀ (l : List QueueRow), ¬ l = [] → ∃ q ∈ l, ∀ r ∈ l, r.priority ≤ q.priority
  | [], h => absurd rfl h
  | [q], _ => ⟨q, List.mem_cons_self _ _, by
      intro r hr
      rcases List.mem_cons.mp hr with rfl | hr
      · exact le_refl _
      · cases hr⟩
  | q :: q2 :: l, _ => by
    obtain ⟨m, hm, hmax⟩ := exists_max_priority (q2 :: l) (by simp)
    by_cases hq : q.priority ≤ m.priority
    · refine ⟨m, List.mem_cons_of_mem _ hm, ?_⟩
      intro r hr
      rcases List.mem_cons.mp hr with rfl | hr
      · exact hq
      · exact hmax r hr
    · push_neg at hq
      refine ⟨q, List.mem_cons_self _ _, ?_⟩
      intro r hr
      rcases List.mem_cons.mp hr with rfl | hr
      · exact le_refl _
      · exact le_of_lt (lt_of_le_of_lt (hmax r hr) hq)

theorem topBand_ne_nil {cands : List QueueRow} (hc : ¬ cands = []) : ¬ topBand cands = [] := by
  obtain ⟨q, hq, hmax⟩ := exists_max_priority cands hc
  intro hcon
  have hqin : q ∈ topBand cands := by
    refine List.mem_filter.mpr ⟨hq, ?_⟩
    rw [List.all_eq_true]
    intro r hr
    exact decide_eq_true (hmax r hr)
  rw [hcon] at hqin
  cases hqin

theorem selectQueue_spec (cfg : Config) (s : SchedState) (qname : Option String)
    (caps : List String) (o : List Nat) :
    (selectQueue cfg s qname caps o).1 = none ∨
    ∃ q, (selectQueue cfg s qname caps o).1 = some q ∧ q ∈ cfg.queues := by
  rcases hc : queueCands cfg s qname caps with _ | ⟨c, cs⟩
  · have hred : selectQueue cfg s qname caps o = (none, o) := by
      unfold selectQueue; rw [hc]
    rw [hred]
    exact Or.inl rfl
  · have hred : selectQueue cfg s qname caps o =
        (some ((topBand (c :: cs)).getD (o.headD 0 % (topBand (c :: cs)).length) default),
          o.tail) := by
      unfold selectQueue; rw [hc]
    rw [hred]
    refine Or.inr ⟨_, rfl, ?_⟩
    have hcne : ¬ (c :: cs : List QueueRow) = [] := by simp
    have hmem := getD_mod_mem (topBand_ne_nil hcne) (o.headD 0) default
    have hsub := (List.mem_filter.mp hmem).1
    have hcand : (topBand (c :: cs)).getD (o.headD 0 % (topBand (c :: cs)).length) default ∈
        queueCands cfg s qname caps := by
      rw [hc]; exact hsub
    exact (List.mem_filter.mp hcand).1

theorem occ_append (l1 l2 : List String) (h : String) :
    occ (l1 ++ l2) h = occ l1 h + occ l2 h := by
  unfold occ; rw [List.countP_append]

theorem put_readynets_sublist (cfg : Config) (s : SchedState) (h : String) :
    List.Sublist (heatmap_put cfg s h).1.readynets s.readynets := by
  rw [heatmap_put_readynets]
  by_cases hh : cfg.hot_level ≤ hmCount s.heatmap h + 1
  · rw [if_pos hh]; exact List.filter_sublist _
  · rw [if_neg hh]

theorem keysOK_of_heatmap_eq {s1 s2 : SchedState} (he : s2.heatmap = s1.heatmap)
    (h1 : KeysOK s1) : KeysOK s2 := by
  unfold KeysOK at *; rw [he]; exact h1

theorem assignLoop_spec (cfg : Config) (qid : Nat) (gsize : Nat) :
    ∀ (fuel : Nat) (s : SchedState) (o : List Nat) (acc : List String),
      Sound cfg s → KeysOK s → HashOK s →
      Sound cfg (assignLoop cfg qid gsize fuel s o acc).1 ∧
      KeysOK (assignLoop cfg qid gsize fuel s o acc).1 ∧
      HashOK (assignLoop cfg qid gsize fuel s o acc).1 ∧
      (assignLoop cfg qid gsize fuel s o acc).1.jobs = s.jobs ∧
      (assignLoop cfg qid gsize fuel s o acc).1.next_job = s.next_job ∧
      (∃ dlt, (assignLoop cfg qid gsize fuel s o acc).2 = acc ++ dlt ∧
        ∀ h, hmCount (assignLoop cfg qid gsize fuel s o acc).1.heatmap h =
          hmCount s.heatmap h + occ dlt h) ∧
      (acc.length ≤ gsize → (assignLoop cfg qid gsize fuel s o acc).2.length ≤ gsize) ∧
      List.Sublist (assignLoop cfg qid gsize fuel s o acc).1.targets s.targets ∧
      List.Sublist (assignLoop cfg qid gsize fuel s o acc).1.readynets s.readynets ∧
      ((assignLoop cfg qid gsize fuel s o acc).2 = acc →
        (assignLoop cfg qid gsize fuel s o acc).1.heatmap = s.heatmap ∧
        ∀ t ∈ s.targets, t ∉ (assignLoop cfg qid gsize fuel s o acc).1.targets →
          cfg.blacklist t.target = true) := by
  intro fuel
  induction fuel with
  | zero =>
    intro s o acc hS hU hH
    have hred : assignLoop cfg qid gsize 0 s o acc = (s, acc) := rfl
    rw [hred]
    exact ⟨hS, hU, hH, rfl, rfl, ⟨[], by simp, fun h => by simp [occ_nil]⟩,
      fun hl => hl, List.Sublist.refl _, List.Sublist.refl _,
      fun _ => ⟨rfl, fun t ht hnt => absurd ht hnt⟩⟩
  | succ fuel ih =>
    intro s o acc hS hU hH
    by_cases hlen : acc.length < gsize
    · rcases hp : popRandomTarget s qid o with ⟨r1, s1, o1⟩
      rcases r1 with _ | rt
      · have hred : assignLoop cfg qid gsize (fuel + 1) s o acc = (s1, acc) := by
          simp only [assignLoop]
          rw [if_pos hlen, hp]
        have hspec := popRandomTarget_spec s qid o
        rw [hp] at hspec
        rcases hspec with ⟨_, hs1⟩ | ⟨t, _, _, hfst, _⟩
        · have hs1' : s1 = s := hs1
          rw [hred, hs1']
          exact ⟨hS, hU, hH, rfl, rfl, ⟨[], by simp, fun h => by simp [occ_nil]⟩,
            fun hl => hl, List.Sublist.refl _, List.Sublist.refl _,
            fun _ => ⟨rfl, fun t ht hnt => absurd ht hnt⟩⟩
        · exact absurd hfst (by simp)
      · have hred : assignLoop cfg qid gsize (fuel + 1) s o acc =
            (if cfg.blacklist rt.target then assignLoop cfg qid gsize fuel s1 o1 acc
             else assignLoop cfg qid gsize fuel (heatmap_put cfg s1 rt.hashval).1 o1
               (acc ++ [rt.target])) := by
          simp only [assignLoop]
          rw [if_pos hlen, hp]
        have hspec := popRandomTarget_spec s qid o
        rw [hp] at hspec
        rcases hspec with ⟨hfst, _⟩ | ⟨t, htmem, htq, hfst, htar, hhm, hjobs, hnext, hrn⟩
        · exact absurd hfst (by simp)
        · have hrt : rt = ⟨t.target, t.hashval⟩ := by
            have : some rt = some (⟨t.target, t.hashval⟩ : RandomTarget) := hfst
            injection this
          have hS1 : Sound cfg s1 := by
            have := pop_target_sound cfg s qid o hS
            rw [hp] at this
            exact this
          have hU1 : KeysOK s1 := keysOK_of_heatmap_eq hhm hU
          have hH1 : HashOK s1 := by
            have := pop_target_hashok qid o hH
            rw [hp] at this
            exact this
          have htsub : List.Sublist s1.targets s.targets := by
            rw [htar]; exact List.erase_sublist t s.targets
          have hrsub : List.Sublist s1.readynets s.readynets := by
            rcases hrn with ⟨hre, _⟩ | hre
            · rw [hre]
            · rw [hre]; exact List.filter_sublist s.readynets
          by_cases hbl : cfg.blacklist rt.target = true
          · rw [hred, if_pos hbl]
            obtain ⟨A, B, C, D, E, ⟨dlt, hdlt, hcount⟩, G, H, I, J⟩ := ih s1 o1 acc hS1 hU1 hH1
            refine ⟨A, B, C, by rw [D, hjobs], by rw [E, hnext],
              ⟨dlt, hdlt, fun h => by rw [hcount h, hhm]⟩, G,
              H.trans htsub, I.trans hrsub, ?_⟩
            intro hacc
            obtain ⟨hhm2, hbl2⟩ := J hacc
            refine ⟨by rw [hhm2, hhm], ?_⟩
            intro t2 ht2 hnt2
            by_cases ht2in : t2 ∈ s1.targets
            · exact hbl2 t2 ht2in hnt2
            · have ht2eq : t2 = t := by
                by_contra hne
                rw [htar] at ht2in
                exact ht2in ((List.mem_erase_of_ne hne).mpr ht2)
              rw [ht2eq]
              have : rt.target = t.target := by rw [hrt]
              rw [← this]
              exact hbl
          · rw [hred, if_neg hbl]
            have hS2 : Sound cfg (heatmap_put cfg s1 rt.hashval).1 :=
              put_sound cfg s1 rt.hashval hS1
            have hU2 : KeysOK (heatmap_put cfg s1 rt.hashval).1 :=
              put_keys cfg s1 rt.hashval hU1
            have hH2 : HashOK (heatmap_put cfg s1 rt.hashval).1 := by
              intro t2 ht2
              rw [heatmap_put_targets] at ht2
              exact hH1 t2 ht2
            obtain ⟨A, B, C, D, E, ⟨dlt, hdlt, hcount⟩, G, H, I, J⟩ :=
              ih (heatmap_put cfg s1 rt.hashval).1 o1 (acc ++ [rt.target]) hS2 hU2 hH2
            have hhv : rt.hashval = hashval rt.target := by
              rw [hrt]
              exact hH t htmem
            have hhm2 : s1.heatmap = s.heatmap := hhm
            refine ⟨A, B, C, by rw [D, heatmap_put_jobs, hjobs],
              by rw [E, heatmap_put_next, hnext],
              ⟨rt.target :: dlt, by rw [hdlt]; simp, ?_⟩, ?_, ?_, ?_, ?_⟩
            · intro h
              rw [hcount h, occ_cons]
              by_cases hhh : hashval rt.target = h
              · subst hhh
                rw [if_pos rfl, ← hhv, hmCount_put_self, hhm2]
                push_cast
                omega
              · rw [if_neg hhh, hmCount_put_ne cfg s1 rt.hashval
                  (fun hcon => hhh ((hcon.trans hhv).symm)), hhm2]
                push_cast
                omega
            · intro hle
              refine G ?_
              simp only [List.length_append, List.length_cons, List.length_nil]
              omega
            · refine H.trans ?_
              rw [show (heatmap_put cfg s1 rt.hashval).1.targets = s1.targets from rfl]
              exact htsub
            · exact I.trans ((put_readynets_sublist cfg s1 rt.hashval).trans hrsub)
            · intro hacc
              exfalso
              rw [hdlt] at hacc
              have hlen2 := congrArg List.length hacc
              simp only [List.length_append, List.length_cons, List.length_nil] at hlen2
              omega
    · have hred : assignLoop cfg qid gsize (fuel + 1) s o acc = (s, acc) := by
        simp only [assignLoop]
        rw [if_neg hlen]
      rw [hred]
      exact ⟨hS, hU, hH, rfl, rfl, ⟨[], by simp, fun h => by simp [occ_nil]⟩,
        fun hl => hl, List.Sublist.refl _, List.Sublist.refl _,
        fun _ => ⟨rfl, fun t ht hnt => absurd ht hnt⟩⟩

theorem assignLoop_plain (cfg : Config) (qid : Nat) (gsize : Nat) :
    ∀ (fuel : Nat) (s : SchedState) (o : List Nat) (acc : List String),
      List.Sublist (assignLoop cfg qid gsize fuel s o acc).1.targets s.targets ∧
      List.Sublist (assignLoop cfg qid gsize fuel s o acc).1.readynets s.readynets ∧
      (assignLoop cfg qid gsize fuel s o acc).1.jobs = s.jobs ∧
      (assignLoop cfg qid gsize fuel s o acc).1.next_job = s.next_job ∧
      (∃ dlt, (assignLoop cfg qid gsize fuel s o acc).2 = acc ++ dlt) ∧
      (acc.length ≤ gsize → (assignLoop cfg qid gsize fuel s o acc).2.length ≤ gsize) ∧
      ((assignLoop cfg qid gsize fuel s o acc).2 = acc →
        (assignLoop cfg qid gsize fuel s o acc).1.heatmap = s.heatmap ∧
        ∀ t ∈ s.targets, t ∉ (assignLoop cfg qid gsize fuel s o acc).1.targets →
          cfg.blacklist t.target = true) := by
  intro fuel
  induction fuel with
  | zero =>
    intro s o acc
    have hred : assignLoop cfg qid gsize 0 s o acc = (s, acc) := rfl
    rw [hred]
    exact ⟨List.Sublist.refl _, List.Sublist.refl _, rfl, rfl, ⟨[], by simp⟩,
      fun hl => hl, fun _ => ⟨rfl, fun t ht hnt => absurd ht hnt⟩⟩
  | succ fuel ih =>
    intro s o acc
    by_cases hlen : acc.length < gsize
    · rcases hp : popRandomTarget s qid o with ⟨r1, s1, o1⟩
      rcases r1 with _ | rt
      · have hred : assignLoop cfg qid gsize (fuel + 1) s o acc = (s1, acc) := by
          simp only [assignLoop]
          rw [if_pos hlen, hp]
        have hspec := popRandomTarget_spec s qid o
        rw [hp] at hspec
        rcases hspec with ⟨_, hs1⟩ | ⟨t, _, _, hfst, _⟩
        · have hs1' : s1 = s := hs1
          rw [hred, hs1']
          exact ⟨List.Sublist.refl _, List.Sublist.refl _, rfl, rfl, ⟨[], by simp⟩,
            fun hl => hl, fun _ => ⟨rfl, fun t ht hnt => absurd ht hnt⟩⟩
        · exact absurd hfst (by simp)
      · have hred : assignLoop cfg qid gsize (fuel + 1) s o acc =
            (if cfg.blacklist rt.target then assignLoop cfg qid gsize fuel s1 o1 acc
             else assignLoop cfg qid gsize fuel (heatmap_put cfg s1 rt.hashval).1 o1
               (acc ++ [rt.target])) := by
          simp only [assignLoop]
          rw [if_pos hlen, hp]
        have hspec := popRandomTarget_spec s qid o
        rw [hp] at hspec
        rcases hspec with ⟨hfst, _⟩ | ⟨t, htmem, htq, hfst, htar, hhm, hjobs, hnext, hrn⟩
        · exact absurd hfst (by simp)
        · have hrt : rt = ⟨t.target, t.hashval⟩ := by
            have hinj : some rt = some (⟨t.target, t.hashval⟩ : RandomTarget) := hfst
            injection hinj
          have hhm2 : s1.heatmap = s.heatmap := hhm
          have htar2 : s1.targets = s.targets.erase t := htar
          have htsub : List.Sublist s1.targets s.targets := by
            rw [htar2]; exact List.erase_sublist t s.targets
          have hrsub : List.Sublist s1.readynets s.readynets := by
            rcases hrn with ⟨hre, _⟩ | hre
            · rw [show s1.readynets = s.readynets from hre]
            · rw [show s1.readynets = List.filter
                (fun p => decide ¬(p.1 = qid ∧ p.2 = t.hashval)) s.readynets from hre]
              exact List.filter_sublist s.readynets
          have hjobs2 : s1.jobs = s.jobs := hjobs
          have hnext2 : s1.next_job = s.next_job := hnext
          by_cases hbl : cfg.blacklist rt.target = true
          · rw [hred, if_pos hbl]
            obtain ⟨A, B, C, D, E, F, G⟩ := ih s1 o1 acc
            refine ⟨A.trans htsub, B.trans hrsub, by rw [C, hjobs2], by rw [D, hnext2],
              E, F, ?_⟩
            intro hacc
            obtain ⟨h1, h2⟩ := G hacc
            refine ⟨by rw [h1, hhm2], ?_⟩
            intro t2 ht2 hnt2
            by_cases ht2in : t2 ∈ s1.targets
            · exact h2 t2 ht2in hnt2
            · have ht2eq : t2 = t := by
                by_contra hne
                rw [htar2] at ht2in
                exact ht2in ((List.mem_erase_of_ne hne).mpr ht2)
              rw [ht2eq, show t.target = rt.target from by rw [hrt]]
              exact hbl
          · rw [hred, if_neg hbl]
            obtain ⟨A, B, C, D, E, F, G⟩ := ih (heatmap_put cfg s1 rt.hashval).1 o1
              (acc ++ [rt.target])
            obtain ⟨dlt, hdlt⟩ := E
            refine ⟨?_, ?_, by rw [C, heatmap_put_jobs, hjobs2],
              by rw [D, heatmap_put_next, hnext2],
              ⟨rt.target :: dlt, by rw [hdlt]; simp⟩, ?_, ?_⟩
            · refine A.trans ?_
              rw [show (heatmap_put cfg s1 rt.hashval).1.targets = s1.targets from rfl]
              exact htsub
            · exact B.trans ((put_readynets_sublist cfg s1 rt.hashval).trans hrsub)
            · intro _
              refine F ?_
              simp only [List.length_append, List.length_cons, List.length_nil]
              omega
            · intro hacc
              exfalso
              rw [hdlt] at hacc
              have hlen2 := congrArg List.length hacc
              simp only [List.length_append, List.length_cons, List.length_nil] at hlen2
              omega
    · have hred : assignLoop cfg qid gsize (fuel + 1) s o acc = (s, acc) := by
        simp only [assignLoop]
        rw [if_neg hlen]
      rw [hred]
      exact ⟨List.Sublist.refl _, List.Sublist.refl _, rfl, rfl, ⟨[], by simp⟩,
        fun hl => hl, fun _ => ⟨rfl, fun t ht hnt => absurd ht hnt⟩⟩

theorem finishAssign_empty {cfg : Config} {q : QueueRow} {r : SchedState × List String}
    (he : r.2 = []) : finishAssign cfg q r = (r.1, none) := by
  unfold finishAssign; rw [if_pos he]

theorem finishAssign_nonempty {cfg : Config} {q : QueueRow} {r : SchedState × List String}
    (he : ¬ r.2 = []) :
    finishAssign cfg q r =
      ({ r.1 with
          jobs := r.1.jobs ++ [⟨r.1.next_job, q.id, r.2, none⟩],
          next_job := r.1.next_job + 1 },
        some (r.1.next_job, r.2)) := by
  unfold finishAssign; rw [if_neg he]

theorem job_assign_inv (cfg : Config) (s : SchedState) (qname : Option String)
    (caps : List String) (o : List Nat) (hI : Inv cfg s) :
    Inv cfg (job_assign cfg s qname caps o).1 := by
  obtain ⟨hS, hC, hH, hU, hJ⟩ := hI
  rcases hsel : selectQueue cfg s qname caps o with ⟨oq, o1⟩
  rcases oq with _ | q
  · have hred : job_assign cfg s qname caps o = (s, none) := by
      unfold job_assign; rw [hsel]
    rw [hred]
    exact ⟨hS, hC, hH, hU, hJ⟩
  · have hred : job_assign cfg s qname caps o = finishAssign cfg q
        (assignLoop cfg q.id q.group_size (s.targets.length + 1) s o1 []) := by
      unfold job_assign; rw [hsel]
    obtain ⟨A, B, C, D, E, ⟨dlt, hdlt, hcount⟩, G, H, I, J⟩ :=
      assignLoop_spec cfg q.id q.group_size (s.targets.length + 1) s o1 [] hS hU hH
    rw [hred]
    by_cases he : (assignLoop cfg q.id q.group_size (s.targets.length + 1) s o1 []).2 = []
    · rw [finishAssign_empty he]
      have hdnil : dlt = [] := by
        rw [hdlt] at he
        simpa using he
      refine ⟨A, ?_, C, B, ?_⟩
      · intro h
        rw [hcount h, hdnil, occ_nil, D]
        have := hC h
        push_cast at this ⊢
        omega
      · unfold JobsOK at *
        rw [D, E]
        exact hJ
    · rw [finishAssign_nonempty he]
      have hr2 : (assignLoop cfg q.id q.group_size (s.targets.length + 1) s o1 []).2 = dlt := by
        rw [hdlt]; simp
      refine ⟨?_, ?_, ?_, ?_, ?_⟩
      · intro p hp
        exact A p hp
      · intro h
        show hmCount (assignLoop cfg q.id q.group_size (s.targets.length + 1) s o1 []).1.heatmap
            h = (outstanding ((assignLoop cfg q.id q.group_size (s.targets.length + 1) s o1
              []).1.jobs ++
              [⟨(assignLoop cfg q.id q.group_size (s.targets.length + 1) s o1 []).1.next_job,
                q.id, (assignLoop cfg q.id q.group_size (s.targets.length + 1) s o1 []).2,
                none⟩]) h : Int)
        rw [hcount h, outstanding_append, outstanding_cons, outstanding_nil, D, hr2]
        have := hC h
        simp only [if_pos rfl]
        push_cast at this ⊢
        omega
      · intro t ht
        exact C t ht
      · exact B
      · constructor
        · show (((assignLoop cfg q.id q.group_size (s.targets.length + 1) s o1 []).1.jobs ++
            [(⟨(assignLoop cfg q.id q.group_size (s.targets.length + 1) s o1 []).1.next_job,
              q.id, (assignLoop cfg q.id q.group_size (s.targets.length + 1) s o1 []).2,
              none⟩ : JobRow)]).map JobRow.id).Nodup
          rw [List.map_append, D, E]
          rw [List.nodup_append]
          refine ⟨hJ.1, by simp, ?_⟩
          intro x hx
          simp only [List.map_cons, List.map_nil, List.mem_cons, List.not_mem_nil,
            or_false]
          intro hcon
          rcases List.mem_map.mp hx with ⟨j0, hj0, rfl⟩
          have := hJ.2 j0 hj0
          omega
        · intro j2 hj2
          show j2.id < (assignLoop cfg q.id q.group_size (s.targets.length + 1) s o1
            []).1.next_job + 1
          rcases List.mem_append.mp hj2 with hj2 | hj2
          · have := hJ.2 j2 (by rw [← D]; exact hj2)
            rw [E]
            omega
          · simp only [List.mem_cons, List.not_mem_nil, or_false] at hj2
            rw [hj2]
            show (assignLoop cfg q.id q.group_size (s.targets.length + 1) s o1
              []).1.next_job < (assignLoop cfg q.id q.group_size (s.targets.length + 1) s o1
              []).1.next_job + 1
            omega

theorem finish_drain_inv (cfg : Config) (s : SchedState) (jid : Nat) (rv : Int)
    (o : List Nat) {j : JobRow} (hf : s.jobs.find? (fun j2 => decide (j2.id = jid)) = some j)
    (hjrun : j.retval = none) (hI : Inv cfg s) :
    Inv cfg (drainTargets cfg j.targets { s with jobs := setRetval s.jobs jid rv } o) := by
  obtain ⟨hS, hC, hH, hU, hJ⟩ := hI
  have hout : ∀ h, outstanding s.jobs h = outstanding (setRetval s.jobs jid rv) h +
      occ j.targets h := fun h => outstanding_setRetval hJ.1 hf hjrun rv h
  have hmid_heat : ({ s with jobs := setRetval s.jobs jid rv } : SchedState).heatmap =
      s.heatmap := rfl
  have hSmid : Sound cfg { s with jobs := setRetval s.jobs jid rv } := fun p hp => hS p hp
  have hUmid : KeysOK { s with jobs := setRetval s.jobs jid rv } := hU
  have hcnt : ∀ h, (occ j.targets h : Int) ≤
      hmCount ({ s with jobs := setRetval s.jobs jid rv } : SchedState).heatmap h := by
    intro h
    rw [hmid_heat]
    have hc := hC h
    rw [hout h] at hc
    push_cast at hc ⊢
    omega
  obtain ⟨A, B, C, D, E, F⟩ := drainTargets_spec cfg j.targets
    { s with jobs := setRetval s.jobs jid rv } o hSmid hUmid hcnt
  refine ⟨A, ?_, ?_, B, ?_⟩
  · intro h
    rw [C h, E, hmid_heat]
    have hc := hC h
    rw [hout h] at hc
    have hjobs_mid : ({ s with jobs := setRetval s.jobs jid rv } : SchedState).jobs =
        setRetval s.jobs jid rv := rfl
    rw [hjobs_mid]
    push_cast at hc ⊢
    omega
  · intro t ht
    rw [D] at ht
    exact hH t ht
  · unfold JobsOK at *
    rw [E, F]
    constructor
    · show ((setRetval s.jobs jid rv).map JobRow.id).Nodup
      rw [setRetval_ids]
      exact hJ.1
    · intro j2 hj2
      have hj2' : j2 ∈ (setRetval s.jobs jid rv) := hj2
      rcases List.mem_map.mp hj2' with ⟨j0, hj0, rfl⟩
      have := hJ.2 j0 hj0
      show (if j0.id = jid then { j0 with retval := some rv } else j0).id < s.next_job
      by_cases hid : j0.id = jid
      · rw [if_pos hid]
        exact this
      · rw [if_neg hid]
        exact this

theorem job_output_inv (cfg : Config) (s : SchedState) (jid : Nat) (rv : Int)
    (o : List Nat) (hI : Inv cfg s)
    (hwf : ∀ j ∈ s.jobs, j.id = jid → j.retval = none) :
    Inv cfg (job_output cfg s jid rv o) := by
  rcases hf : s.jobs.find? (fun j2 => decide (j2.id = jid)) with _ | j
  · have hred : job_output cfg s jid rv o = s := by
      unfold job_output; rw [hf]
    rw [hred]
    exact hI
  · have hred : job_output cfg s jid rv o =
        drainTargets cfg j.targets { s with jobs := setRetval s.jobs jid rv } o := by
      unfold job_output; rw [hf]
    rw [hred]
    have hjmem := List.mem_of_find?_eq_some hf
    have hjid : j.id = jid := by simpa using List.find?_some hf
    exact finish_drain_inv cfg s jid rv o hf (hwf j hjmem hjid) hI

theorem reconcile_inv (cfg : Config) (s : SchedState) (jid : Nat) (o : List Nat)
    (hI : Inv cfg s) :
    Inv cfg (match reconcile cfg s jid o with | .ok s1 => s1 | .error _ => s) := by
  rcases hf : s.jobs.find? (fun j2 => decide (j2.id = jid)) with _ | j
  · have hred : reconcile cfg s jid o = .ok s := by
      unfold reconcile; rw [hf]
    rw [hred]
    exact hI
  · by_cases hrv : j.retval ≠ none
    · have hred : reconcile cfg s jid o = .error () := by
        unfold reconcile
        rw [hf]
        show (if j.retval ≠ none then Except.error () else Except.ok (drainTargets cfg
          j.targets { s with jobs := setRetval s.jobs jid (-1) } o)) = Except.error ()
        rw [if_pos hrv]
      rw [hred]
      exact hI
    · have hred : reconcile cfg s jid o =
          .ok (drainTargets cfg j.targets { s with jobs := setRetval s.jobs jid (-1) } o) := by
        unfold reconcile
        rw [hf]
        show (if j.retval ≠ none then Except.error () else Except.ok (drainTargets cfg
          j.targets { s with jobs := setRetval s.jobs jid (-1) } o)) = _
        rw [if_neg hrv]
      rw [hred]
      push_neg at hrv
      exact finish_drain_inv cfg s jid (-1) o hf hrv hI

theorem flush_inv (cfg : Config) (s : SchedState) (qid : Nat) (hI : Inv cfg s) :
    Inv cfg (flush s qid) := by
  obtain ⟨hS, hC, hH, hU, hJ⟩ := hI
  obtain ⟨h1, h2, h3, h4⟩ := flush_effects s qid
  refine ⟨flush_sound cfg s qid hS, ?_, h4 hH, ?_, ?_⟩
  · intro h
    rw [h1, h2]
    exact hC h
  · unfold KeysOK at *
    rw [h1]
    exact hU
  · unfold JobsOK at *
    rw [h2, h3]
    exact hJ

theorem enqueue_inv (cfg : Config) (s : SchedState) (q : QueueRow) (tgts : List String)
    (hhot : 1 ≤ cfg.hot_level) (hI : Inv cfg s) : Inv cfg (enqueue cfg s q tgts) := by
  obtain ⟨hS, hC, hH, hU, hJ⟩ := hI
  obtain ⟨h1, h2, h3, h4⟩ := enqueue_effects cfg s q tgts
  refine ⟨enqueue_sound cfg s q tgts hS hhot, ?_, h4 hH, ?_, ?_⟩
  · intro h
    rw [h1, h2]
    exact hC h
  · unfold KeysOK at *
    rw [h1]
    exact hU
  · unfold JobsOK at *
    rw [h2, h3]
    exact hJ

theorem applyOp_inv (cfg : Config) (s : SchedState) (op : Op) (o : List Nat)
    (hhot : 1 ≤ cfg.hot_level) (hI : Inv cfg s) (hwf : wfOp s op = true) :
    Inv cfg (applyOp cfg s op o) := by
  cases op with
  | enqueue qid tgts =>
    rcases hq : cfg.queues.find? (fun q => decide (q.id = qid)) with _ | q
    · have hred : applyOp cfg s (Op.enqueue qid tgts) o = s := by
        show (match cfg.queues.find? (fun q => decide (q.id = qid)) with
          | none => s
          | some q => enqueue cfg s q tgts) = s
        rw [hq]
      rw [hred]
      exact hI
    · have hred : applyOp cfg s (Op.enqueue qid tgts) o = enqueue cfg s q tgts := by
        show (match cfg.queues.find? (fun q2 => decide (q2.id = qid)) with
          | none => s
          | some q2 => enqueue cfg s q2 tgts) = enqueue cfg s q tgts
        rw [hq]
      rw [hred]
      exact enqueue_inv cfg s q tgts hhot hI
  | jobAssign qn caps => exact job_assign_inv cfg s qn caps o hI
  | jobOutput jid rv =>
    refine job_output_inv cfg s jid rv o hI ?_
    intro j hj hid
    have := List.all_eq_true.mp hwf j hj
    rw [decide_eq_true_iff] at this
    exact this hid
  | reconcileOp jid => exact reconcile_inv cfg s jid o hI
  | flushOp qid => exact flush_inv cfg s qid hI

theorem runOps_inv (cfg : Config) (hhot : 1 ≤ cfg.hot_level) :
    ∀ (l : List (Op × List Nat)) (s : SchedState), Inv cfg s → wfRun cfg s l = true →
      Inv cfg (runOps cfg s l)
  | [], _, hI, _ => hI
  | p :: rest, s, hI, hwf => by
    rw [wfRun] at hwf
    simp only [Bool.and_eq_true] at hwf
    exact runOps_inv cfg hhot rest (applyOp cfg s p.1 p.2)
      (applyOp_inv cfg s p.1 p.2 hhot hI hwf.1) hwf.2

theorem inv_init (cfg : Config) : Inv cfg initState := by
  refine ⟨?_, ?_, ?_, ?_, ?_, ?_⟩
  · intro p hp
    cases hp
  · intro h
    rfl
  · intro t ht
    cases ht
  · exact List.nodup_nil
  · exact List.nodup_nil
  · intro j hj
    cases hj

theorem drainTargets_counts (cfg : Config) (ts : List String) :
    ∀ (s : SchedState) (o : List Nat), KeysOK s →
      (∀ h, (occ ts h : Int) ≤ hmCount s.heatmap h) →
      KeysOK (drainTargets cfg ts s o) ∧
      (∀ h, hmCount (drainTargets cfg ts s o).heatmap h = hmCount s.heatmap h - occ ts h) ∧
      (drainTargets cfg ts s o).targets = s.targets ∧
      (drainTargets cfg ts s o).jobs = s.jobs := by
  induction ts with
  | nil =>
    intro s o hU _
    refine ⟨hU, ?_, rfl, rfl⟩
    intro h
    rw [show drainTargets cfg [] s o = s from rfl, occ_nil]
    simp
  | cons t ts ih =>
    intro s o hU hcnt
    have hpos : 1 ≤ hmCount s.heatmap (hashval t) := by
      have := hcnt (hashval t)
      rw [occ_cons, if_pos rfl] at this
      push_cast at this
      omega
    have hU1 := pop_keys cfg s (hashval t) (o.headD 0 % 2 == 1) hU
    have hkey : hmCount (heatmap_pop cfg s (hashval t) (o.headD 0 % 2 == 1)).1.heatmap
        (hashval t) = hmCount s.heatmap (hashval t) - 1 := by
      rw [hmCount_pop_self cfg s (hashval t) _ hU, (popNewCount_of_pos hpos).1]
    have hcnt1 : ∀ h, (occ ts h : Int) ≤
        hmCount (heatmap_pop cfg s (hashval t) (o.headD 0 % 2 == 1)).1.heatmap h := by
      intro h
      by_cases hh : h = hashval t
      · subst hh
        rw [hkey]
        have := hcnt (hashval t)
        rw [occ_cons, if_pos rfl] at this
        push_cast at this
        omega
      · rw [hmCount_pop_ne cfg s (hashval t) _ hh hU]
        have := hcnt h
        rw [occ_cons, if_neg (fun hhh => hh hhh.symm)] at this
        push_cast at this
        omega
    obtain ⟨B, C, D, E⟩ :=
      ih (heatmap_pop cfg s (hashval t) (o.headD 0 % 2 == 1)).1 o.tail hU1 hcnt1
    rw [show drainTargets cfg (t :: ts) s o = drainTargets cfg ts
      (heatmap_pop cfg s (hashval t) (o.headD 0 % 2 == 1)).1 o.tail from rfl]
    refine ⟨B, ?_, ?_, ?_⟩
    · intro h
      rw [C h]
      by_cases hh : h = hashval t
      · subst hh
        rw [hkey, occ_cons, if_pos rfl]
        push_cast
        omega
      · rw [hmCount_pop_ne cfg s (hashval t) _ hh hU, occ_cons,
          if_neg (fun hhh => hh hhh.symm)]
        push_cast
        omega
    · rw [D, heatmap_pop_targets]
    · rw [E, heatmap_pop_jobs]

/-- C1 (amended): for every well-formed sequence of operations (enqueue,
job_assign, job_output, reconcile, flush) from the empty state — well-formed
meaning `job_output` is only submitted for a job whose `retval` is still null,
as the spec's Job state machine prescribes — and for any hot_level ≥ 1, the
Readynet soundness invariant holds: every Readynet (queue, hashval) row has at
least one Target row with that (queue_id, hashval), and the Heatmap count of
that hashval is strictly below hot_level. -/
theorem readynet_soundness_invariant (cfg : Config) (hhot : 1 ≤ cfg.hot_level)
    (l : List (Op × List Nat)) (hwf : wfRun cfg initState l = true) :
    Sound cfg (runOps cfg initState l) :=
  (runOps_inv cfg hhot l initState (inv_init cfg) hwf).1

/-- Witness for C1: a hot_level-2 run — enqueue two /24-sharing addresses,
assign one, submit its output — is well-formed and ends in a sound state. -/
theorem readynet_soundness_invariant_witness :
    wfRun ⟨2, [⟨1, "q", true, 0, [], 1⟩], fun _ => false⟩ initState
      [(.enqueue 1 ["10.0.0.1", "10.0.0.2"], []), (.jobAssign none [], [0, 0, 0]),
        (.jobOutput 0 0, [1])] = true ∧
    Sound ⟨2, [⟨1, "q", true, 0, [], 1⟩], fun _ => false⟩
      (runOps ⟨2, [⟨1, "q", true, 0, [], 1⟩], fun _ => false⟩ initState
        [(.enqueue 1 ["10.0.0.1", "10.0.0.2"], []), (.jobAssign none [], [0, 0, 0]),
          (.jobOutput 0 0, [1])]) :=
  ⟨by decide, readynet_soundness_invariant ⟨2, [⟨1, "q", true, 0, [], 1⟩], fun _ => false⟩
    (by decide) [(.enqueue 1 ["10.0.0.1", "10.0.0.2"], []), (.jobAssign none [], [0, 0, 0]),
      (.jobOutput 0 0, [1])] (by decide)⟩

/-- C1 (counterexample): as stated, the claim is false. `JobManager.finish` sets
`retval` without checking it, so submitting `job_output` twice for the same job
drains the heatmap twice; with hot_level 1, the bucket's count is garbage
collected to an absent row, the second pop re-inserts it at count 1, and a
readynet then coexists with a count at hot_level. -/
theorem readynet_soundness_cex :
    ¬ Sound ⟨1, [⟨1, "q", true, 0, [], 1⟩], fun _ => false⟩
      (runOps ⟨1, [⟨1, "q", true, 0, [], 1⟩], fun _ => false⟩ initState
        [(.enqueue 1 ["10.0.0.1", "10.0.0.2"], []), (.jobAssign none [], [0, 0, 0]),
          (.jobOutput 0 0, [1]), (.jobOutput 0 5, [0])]) := by decide

/-- C2 (amended): `job_assign` either returns a non-empty assignment persisted
as a Job row with null retval, or returns the empty ("nowork") answer with the
Heatmap and Job tables unchanged — but in the latter case blacklisted Target
rows drawn during the loop are deleted (their Readynet rows pruned when a
bucket empties), exactly as the blacklist discard of the spec requires. -/
theorem job_assign_all_or_nothing (cfg : Config) (s : SchedState)
    (qname : Option String) (caps : List String) (o : List Nat) :
    ((job_assign cfg s qname caps o).2 = none ∧
      (job_assign cfg s qname caps o).1.heatmap = s.heatmap ∧
      (job_assign cfg s qname caps o).1.jobs = s.jobs ∧
      List.Sublist (job_assign cfg s qname caps o).1.targets s.targets ∧
      List.Sublist (job_assign cfg s qname caps o).1.readynets s.readynets ∧
      (∀ t ∈ s.targets, t ∉ (job_assign cfg s qname caps o).1.targets →
        cfg.blacklist t.target = true)) ∨
    (∃ jid tgts, (job_assign cfg s qname caps o).2 = some (jid, tgts) ∧ ¬ tgts = [] ∧
      ∃ j ∈ (job_assign cfg s qname caps o).1.jobs,
        j.id = jid ∧ j.targets = tgts ∧ j.retval = none) := by
  rcases hsel : selectQueue cfg s qname caps o with ⟨oq, o1⟩
  rcases oq with _ | q
  · have hred : job_assign cfg s qname caps o = (s, none) := by
      unfold job_assign; rw [hsel]
    rw [hred]
    exact Or.inl ⟨rfl, rfl, rfl, List.Sublist.refl _, List.Sublist.refl _,
      fun t ht hnt => absurd ht hnt⟩
  · have hred : job_assign cfg s qname caps o = finishAssign cfg q
        (assignLoop cfg q.id q.group_size (s.targets.length + 1) s o1 []) := by
      unfold job_assign; rw [hsel]
    obtain ⟨A, B, C, D, E, F, G⟩ :=
      assignLoop_plain cfg q.id q.group_size (s.targets.length + 1) s o1 []
    rw [hred]
    by_cases he : (assignLoop cfg q.id q.group_size (s.targets.length + 1) s o1 []).2 = []
    · rw [finishAssign_empty he]
      obtain ⟨h1, h2⟩ := G he
      exact Or.inl ⟨rfl, h1, C, A, B, h2⟩
    · rw [finishAssign_nonempty he]
      refine Or.inr ⟨(assignLoop cfg q.id q.group_size (s.targets.length + 1) s o1
        []).1.next_job, (assignLoop cfg q.id q.group_size (s.targets.length + 1) s o1 []).2,
        rfl, he, ⟨(assignLoop cfg q.id q.group_size (s.targets.length + 1) s o1
          []).1.next_job, q.id, (assignLoop cfg q.id q.group_size (s.targets.length + 1) s
          o1 []).2, none⟩, ?_, rfl, rfl, rfl⟩
      exact List.mem_append.mpr (Or.inr (List.mem_cons_self _ _))

/-- C2 (counterexample): as stated, the claim is false. With a blacklisted
target enqueued, `job_assign` returns the empty assignment `{}` yet the Target
row (and its Readynet row) are gone: pops delete rows before the blacklist
check, and nothing restores them. -/
theorem job_assign_all_or_nothing_cex :
    (job_assign ⟨2, [⟨1, "q", true, 0, [], 10⟩], fun t => t == "203.0.113.5"⟩
      (runOps ⟨2, [⟨1, "q", true, 0, [], 10⟩], fun t => t == "203.0.113.5"⟩
        initState [(.enqueue 1 ["203.0.113.5"], [])]) none [] [0, 0]).2 = none ∧
    ¬ (job_assign ⟨2, [⟨1, "q", true, 0, [], 10⟩], fun t => t == "203.0.113.5"⟩
      (runOps ⟨2, [⟨1, "q", true, 0, [], 10⟩], fun t => t == "203.0.113.5"⟩
        initState [(.enqueue 1 ["203.0.113.5"], [])]) none [] [0, 0]).1.targets =
      (runOps ⟨2, [⟨1, "q", true, 0, [], 10⟩], fun t => t == "203.0.113.5"⟩
        initState [(.enqueue 1 ["203.0.113.5"], [])]).targets ∧
    ¬ (job_assign ⟨2, [⟨1, "q", true, 0, [], 10⟩], fun t => t == "203.0.113.5"⟩
      (runOps ⟨2, [⟨1, "q", true, 0, [], 10⟩], fun t => t == "203.0.113.5"⟩
        initState [(.enqueue 1 ["203.0.113.5"], [])]) none [] [0, 0]).1.readynets =
      (runOps ⟨2, [⟨1, "q", true, 0, [], 10⟩], fun t => t == "203.0.113.5"⟩
        initState [(.enqueue 1 ["203.0.113.5"], [])]).readynets := by
  refine ⟨by decide, by decide, by decide⟩

/-- C3 (amended): `heatmap_put` increments the bucket's count by one (creating
the row at count 1 when absent) and returns the new count; if the new count
reaches hot_level, no Readynet row with that hashval remains; if it stays
below, the Readynet table is untouched. The claim's "and only if" direction is
false (see the counterexample): an absent readynet does not imply a hot
bucket. -/
theorem heatmap_put_spec (cfg : Config) (s : SchedState) (h : String) :
    (heatmap_put cfg s h).2 = hmCount s.heatmap h + 1 ∧
    hmCount (heatmap_put cfg s h).1.heatmap h = hmCount s.heatmap h + 1 ∧
    (cfg.hot_level ≤ (heatmap_put cfg s h).2 →
      ∀ p ∈ (heatmap_put cfg s h).1.readynets, ¬ p.2 = h) ∧
    ((heatmap_put cfg s h).2 < cfg.hot_level →
      (heatmap_put cfg s h).1.readynets = s.readynets) := by
  refine ⟨heatmap_put_snd cfg s h, hmCount_put_self cfg s h, ?_, ?_⟩
  · intro hhot p hp
    rw [heatmap_put_snd] at hhot
    rw [heatmap_put_readynets, if_pos hhot] at hp
    simpa using (List.mem_filter.mp hp).2
  · intro hcool
    rw [heatmap_put_snd] at hcool
    rw [heatmap_put_readynets, if_neg (by omega)]

/-- Witness for C3: on a state with count 1 for bucket `h` and a readynet for
it, at hot_level 2 the put returns 2 and clears every readynet of `h`. -/
theorem heatmap_put_spec_witness :
    (heatmap_put ⟨2, [], fun _ => false⟩ ⟨[], [(1, "h")], [("h", 1)], [], 0⟩ "h").2 = 2 ∧
    ∀ p ∈ (heatmap_put ⟨2, [], fun _ => false⟩
      ⟨[], [(1, "h")], [("h", 1)], [], 0⟩ "h").1.readynets, ¬ p.2 = "h" := by
  constructor
  · rw [(heatmap_put_spec ⟨2, [], fun _ => false⟩
      ⟨[], [(1, "h")], [("h", 1)], [], 0⟩ "h").1]
    decide
  · exact (heatmap_put_spec ⟨2, [], fun _ => false⟩
      ⟨[], [(1, "h")], [("h", 1)], [], 0⟩ "h").2.2.1 (by decide)

/-- C3 (counterexample): the "only if" direction of the claim's biconditional
fails — on the empty state with hot_level 5, `heatmap_put "x"` yields count 1,
strictly below hot_level, yet no Readynet row with hashval "x" exists. -/
theorem heatmap_put_iff_cex :
    (heatmap_put ⟨5, [], fun _ => false⟩ initState "x").2 < 5 ∧
    ∀ p ∈ (heatmap_put ⟨5, [], fun _ => false⟩ initState "x").1.readynets,
      ¬ p.2 = "x" := by decide

/-- C4: on a bucket with an existing Heatmap row (`KeysOK` reflects the unique
key constraint of the hashval column), `heatmap_pop` decrements the count by 1
and returns the new count; a Readynet row appears for exactly the queues
holding a Target in the bucket precisely when the count crossed from hot_level
to hot_level − 1, and readynets are untouched on any other transition. -/
theorem heatmap_pop_spec (cfg : Config) (s : SchedState) (h : String) (gc : Bool)
    (c0 : Int) (hl : hmLookup s.heatmap h = some c0) (hU : KeysOK s) :
    (heatmap_pop cfg s h gc).2 = c0 - 1 ∧
    hmCount (heatmap_pop cfg s h gc).1.heatmap h = c0 - 1 ∧
    (c0 = cfg.hot_level → ∀ p : Nat × String,
      p ∈ (heatmap_pop cfg s h gc).1.readynets ↔
        p ∈ s.readynets ∨ (p.2 = h ∧ ∃ t ∈ s.targets, t.queue_id = p.1 ∧ t.hashval = h)) ∧
    (¬ c0 = cfg.hot_level → (heatmap_pop cfg s h gc).1.readynets = s.readynets) := by
  have hpn : popNewCount s.heatmap h = c0 - 1 := by
    unfold popNewCount
    rw [hl]
  refine ⟨by rw [heatmap_pop_snd, hpn], ?_, ?_, ?_⟩
  · rw [hmCount_pop_self cfg s h gc hU, hpn]
  · intro hc0 p
    have hcond : popNewCount s.heatmap h + 1 = cfg.hot_level := by rw [hpn]; omega
    rw [heatmap_pop_readynets, if_pos hcond]
    rw [mem_foldl_rncons]
    constructor
    · rintro (hp | ⟨q, hq, rfl⟩)
      · exact Or.inl hp
      · rw [List.mem_dedup] at hq
        rcases List.mem_map.mp hq with ⟨t, ht, rfl⟩
        have htf := List.mem_filter.mp ht
        exact Or.inr ⟨rfl, t, htf.1, rfl, by simpa using htf.2⟩
    · rintro (hp | ⟨hph, t, htmem, htq, hth⟩)
      · exact Or.inl hp
      · refine Or.inr ⟨p.1, ?_, ?_⟩
        · rw [List.mem_dedup]
          refine List.mem_map.mpr ⟨t, ?_, htq⟩
          exact List.mem_filter.mpr ⟨htmem, by simpa using hth⟩
        · rcases p with ⟨p1, p2⟩
          simp only at hph
          rw [hph]
  · intro hc0
    have hcond : ¬ popNewCount s.heatmap h + 1 = cfg.hot_level := by rw [hpn]; omega
    rw [heatmap_pop_readynets, if_neg hcond]

/-- Witness for C4: with hot_level 2, count 2 for the bucket and one Target of
queue 1 in it, the pop returns 1 and re-inserts the readynet (1, h). -/
theorem heatmap_pop_spec_witness :
    (heatmap_pop ⟨2, [], fun _ => false⟩
      ⟨[⟨1, "t", "h"⟩], [], [("h", 2)], [], 0⟩ "h" false).2 = 1 ∧
    (1, "h") ∈ (heatmap_pop ⟨2, [], fun _ => false⟩
      ⟨[⟨1, "t", "h"⟩], [], [("h", 2)], [], 0⟩ "h" false).1.readynets := by
  obtain ⟨h1, _, h3, _⟩ := heatmap_pop_spec ⟨2, [], fun _ => false⟩
    ⟨[⟨1, "t", "h"⟩], [], [("h", 2)], [], 0⟩ "h" false 2 (by decide) (by decide)
  constructor
  · rw [h1]; decide
  · exact (h3 rfl ((1, "h") : Nat × String)).mpr
      (Or.inr ⟨rfl, ⟨1, "t", "h"⟩, List.mem_cons_self _ _, rfl, rfl⟩)

/-- C5: every assignment returned by `job_assign` contains at most
`queue.group_size` targets, for the queue of the Job row it persists. -/
theorem job_assign_group_size_bound (cfg : Config) (s : SchedState)
    (qname : Option String) (caps : List String) (o : List Nat) (jid : Nat)
    (tgts : List String)
    (hsome : (job_assign cfg s qname caps o).2 = some (jid, tgts)) :
    ∃ q ∈ cfg.queues, tgts.length ≤ q.group_size ∧
      ∃ j ∈ (job_assign cfg s qname caps o).1.jobs,
        j.id = jid ∧ j.queue_id = q.id ∧ j.targets = tgts := by
  rcases hsel : selectQueue cfg s qname caps o with ⟨oq, o1⟩
  rcases oq with _ | q
  · have hred : job_assign cfg s qname caps o = (s, none) := by
      unfold job_assign; rw [hsel]
    rw [hred] at hsome
    cases hsome
  · have hred : job_assign cfg s qname caps o = finishAssign cfg q
        (assignLoop cfg q.id q.group_size (s.targets.length + 1) s o1 []) := by
      unfold job_assign; rw [hsel]
    have hqmem : q ∈ cfg.queues := by
      rcases selectQueue_spec cfg s qname caps o with hnone | ⟨q2, hq2, hq2mem⟩
      · rw [hsel] at hnone
        cases hnone
      · rw [hsel] at hq2
        have : some q = some q2 := hq2
        injection this with hqq
        rw [hqq]
        exact hq2mem
    obtain ⟨A, B, C, D, E, F, G⟩ :=
      assignLoop_plain cfg q.id q.group_size (s.targets.length + 1) s o1 []
    rw [hred] at hsome ⊢
    by_cases he : (assignLoop cfg q.id q.group_size (s.targets.length + 1) s o1 []).2 = []
    · rw [finishAssign_empty he] at hsome
      cases hsome
    · rw [finishAssign_nonempty he] at hsome ⊢
      have hinj : ((assignLoop cfg q.id q.group_size (s.targets.length + 1) s o1
          []).1.next_job, (assignLoop cfg q.id q.group_size (s.targets.length + 1) s o1
          []).2) = (jid, tgts) := by
        injection hsome
      have hjid : (assignLoop cfg q.id q.group_size (s.targets.length + 1) s o1
          []).1.next_job = jid := congrArg Prod.fst hinj
      have htgts : (assignLoop cfg q.id q.group_size (s.targets.length + 1) s o1
          []).2 = tgts := congrArg Prod.snd hinj
      refine ⟨q, hqmem, ?_, ⟨(assignLoop cfg q.id q.group_size (s.targets.length + 1) s o1
        []).1.next_job, q.id, (assignLoop cfg q.id q.group_size (s.targets.length + 1) s o1
        []).2, none⟩, ?_, hjid, rfl, htgts⟩
      · rw [← htgts]
        exact F (Nat.zero_le _)
      · exact List.mem_append.mpr (Or.inr (List.mem_cons_self _ _))

/-- Witness for C5: a concrete assignment of one target from a group_size-1
queue satisfies the bound. -/
theorem job_assign_group_size_bound_witness :
    ∃ q ∈ ((⟨2, [⟨1, "q", true, 0, [], 1⟩], fun _ => false⟩ : Config)).queues,
      (["10.0.0.1"] : List String).length ≤ q.group_size ∧
      ∃ j ∈ (job_assign ⟨2, [⟨1, "q", true, 0, [], 1⟩], fun _ => false⟩
        (runOps ⟨2, [⟨1, "q", true, 0, [], 1⟩], fun _ => false⟩ initState
          [(.enqueue 1 ["10.0.0.1"], [])]) none [] [0, 0, 0]).1.jobs,
        j.id = 0 ∧ j.queue_id = q.id ∧ j.targets = ["10.0.0.1"] :=
  job_assign_group_size_bound ⟨2, [⟨1, "q", true, 0, [], 1⟩], fun _ => false⟩
    (runOps ⟨2, [⟨1, "q", true, 0, [], 1⟩], fun _ => false⟩ initState
      [(.enqueue 1 ["10.0.0.1"], [])]) none [] [0, 0, 0] 0 ["10.0.0.1"] (by decide)

/-- C9: `reconcile` errors exactly when the job's retval is already set (the
state is only changed through the `ok` result); on a running job it sets
retval to −1 and pops the heatmap once per assigned target — the per-bucket
count drops by exactly the job's multiplicity. The count and key hypotheses
express heatmap conservation and the unique hashval key, both true of every
reachable state. -/
theorem reconcile_spec (cfg : Config) (s : SchedState) (jid : Nat) (o : List Nat)
    (j : JobRow) (hf : s.jobs.find? (fun j2 => decide (j2.id = jid)) = some j)
    (hU : KeysOK s) (hcnt : ∀ h, (occ j.targets h : Int) ≤ hmCount s.heatmap h) :
    (¬ j.retval = none → reconcile cfg s jid o = .error ()) ∧
    (j.retval = none → ∃ s2, reconcile cfg s jid o = .ok s2 ∧
      (∀ j2 ∈ s2.jobs, j2.id = jid → j2.retval = some (-1)) ∧
      (∃ j2 ∈ s2.jobs, j2.id = jid) ∧
      (∀ h, hmCount s2.heatmap h = hmCount s.heatmap h - occ j.targets h) ∧
      s2.targets = s.targets) := by
  constructor
  · intro hrv
    unfold reconcile
    rw [hf]
    show (if j.retval ≠ none then Except.error () else Except.ok (drainTargets cfg
      j.targets { s with jobs := setRetval s.jobs jid (-1) } o)) = Except.error ()
    rw [if_pos hrv]
  · intro hrv
    have hred : reconcile cfg s jid o =
        .ok (drainTargets cfg j.targets { s with jobs := setRetval s.jobs jid (-1) } o) := by
      unfold reconcile
      rw [hf]
      show (if j.retval ≠ none then Except.error () else Except.ok (drainTargets cfg
        j.targets { s with jobs := setRetval s.jobs jid (-1) } o)) = _
      rw [if_neg (by simp [hrv])]
    have hmid_heat : ({ s with jobs := setRetval s.jobs jid (-1) } : SchedState).heatmap =
        s.heatmap := rfl
    have hmid_jobs : ({ s with jobs := setRetval s.jobs jid (-1) } : SchedState).jobs =
        setRetval s.jobs jid (-1) := rfl
    obtain ⟨B, C, D, E⟩ := drainTargets_counts cfg j.targets
      { s with jobs := setRetval s.jobs jid (-1) } o hU
      (by intro h; rw [hmid_heat]; exact hcnt h)
    refine ⟨drainTargets cfg j.targets { s with jobs := setRetval s.jobs jid (-1) } o,
      hred, ?_, ?_, ?_, ?_⟩
    · intro j2 hj2 hid
      rw [E, hmid_jobs] at hj2
      rcases List.mem_map.mp hj2 with ⟨j0, _, rfl⟩
      by_cases hid0 : j0.id = jid
      · rw [if_pos hid0]
      · rw [if_neg hid0] at hid ⊢
        exact absurd hid hid0
    · refine ⟨{ j with retval := some (-1) }, ?_, ?_⟩
      · rw [E, hmid_jobs]
        have hjmem := List.mem_of_find?_eq_some hf
        have hjid : j.id = jid := by simpa using List.find?_some hf
        refine List.mem_map.mpr ⟨j, hjmem, ?_⟩
        rw [if_pos hjid]
      · show j.id = jid
        simpa using List.find?_some hf
    · intro h
      rw [C h, hmid_heat]
    · rw [D]

/-- Witness for C9: reconciling a running one-target job at bucket count 1
succeeds, sets retval to −1 and drains the bucket to 0. -/
theorem reconcile_spec_witness :
    ∃ s2, reconcile ⟨2, [], fun _ => false⟩
      ⟨[], [], [("10.0.0.0/24", 1)], [⟨0, 1, ["10.0.0.1"], none⟩], 1⟩ 0 [] = .ok s2 ∧
      (∀ j2 ∈ s2.jobs, j2.id = 0 → j2.retval = some (-1)) ∧
      (∃ j2 ∈ s2.jobs, j2.id = 0) ∧
      (∀ h, hmCount s2.heatmap h =
        hmCount [("10.0.0.0/24", (1 : Int))] h - occ ["10.0.0.1"] h) ∧
      s2.targets = [] := by
  have hcnt : ∀ h, (occ ["10.0.0.1"] h : Int) ≤
      hmCount [("10.0.0.0/24", (1 : Int))] h := by
    intro h
    rw [occ_cons, occ_nil]
    unfold hmCount
    rw [hmLookup_cons, hmLookup_nil]
    by_cases hh : ("10.0.0.0/24" : String) = h
    · rw [if_pos hh, if_pos (show hashval "10.0.0.1" = h by rw [← hh]; decide)]
      decide
    · rw [if_neg hh, if_neg (show ¬ hashval "10.0.0.1" = h from
        fun hcon => hh (by rw [← hcon]; decide))]
      decide
  exact (reconcile_spec ⟨2, [], fun _ => false⟩
    ⟨[], [], [("10.0.0.0/24", 1)], [⟨0, 1, ["10.0.0.1"], none⟩], 1⟩ 0 []
    ⟨0, 1, ["10.0.0.1"], none⟩ (by decide) (by decide) hcnt).2 rfl

end Sner

